import Mathlib

/-!
Verification of the valkeyrie ordered key-value store core against its
natural-language specification.

The development shallowly embeds the key codec, versionstamp clock, store
driver, atomic commit engine and list/cursor pipeline of
`src/valkeyrie.ts` and `src/sqlite-driver.ts`.

Modelling conventions:
* bytes are `Nat` values (meant `< 256`); JS strings appear as their
  UTF-8 byte lists; hex renderings and cursors are lists of character
  codes;
* a JS `number` key part (an IEEE-754 double) is represented by its
  64-bit big-endian bit pattern, which is exactly what
  `writeDoubleBE`/`readDoubleBE` move in and out of key buffers;
* a `bigint` key part is represented by a natural number (the code's
  handling of negative bigints corrupts the hex pipeline and is outside
  every claim);
* fallible code returns `Option` or `Except`.
-/

namespace Valkeyrie

/-- Big-endian fixed-width digit expansion of a natural number in base `B`:
`beDigits B w n` is the list of the `w` low digits, most significant first. -/
def beDigits (B : Nat) : Nat → Nat → List Nat
  | 0, _ => []
  | w + 1, n => beDigits B w (n / B) ++ [n % B]

/-- Recombine a big-endian digit list in base `B` into a natural number. -/
def ofDigits (B : Nat) (l : List Nat) : Nat :=
  l.foldl (fun a d => a * B + d) 0

/-- Minimal hex digit expansion of a natural number, most significant digit
first; `0` renders as the single digit `0`, mirroring JS `toString(16)`. -/
def hexDigits (n : Nat) : List Nat :=
  if h : n < 16 then [n] else hexDigits (n / 16) ++ [n % 16]
  termination_by n
  decreasing_by
    simp only [not_lt] at h
    exact Nat.div_lt_self (by omega) (by omega)

/-- Left-pad a list to width `w` with zeros, mirroring JS `padStart(w, "0")`
on a digit string. -/
def padZeros (w : Nat) (l : List Nat) : List Nat :=
  List.replicate (w - l.length) 0 ++ l

/-- Consume a hex digit list two digits at a time into bytes; a lone
trailing digit is dropped, as `Buffer.from(hex, "hex")` drops an odd tail. -/
def hexPairsToBytes : List Nat → List Nat
  | d1 :: d2 :: rest => (d1 * 16 + d2) :: hexPairsToBytes rest
  | _ => []

/-- Character code of the lowercase hex digit `d`, as emitted by
`Buffer.toString("hex")`. -/
def hexChar (d : Nat) : Nat :=
  if d < 10 then 48 + d else 87 + d

/-- Hex rendering of a byte list as a list of character codes
(`Buffer.toString("hex")`). -/
def hexEncodeBytes (l : List Nat) : List Nat :=
  l.flatMap fun b => [hexChar (b / 16), hexChar (b % 16)]

/-- Numeric value of a hex character code (`0-9`, `a-f`, `A-F`), or `none`. -/
def hexVal (c : Nat) : Option Nat :=
  if 48 ≤ c ∧ c ≤ 57 then some (c - 48)
  else if 97 ≤ c ∧ c ≤ 102 then some (c - 87)
  else if 65 ≤ c ∧ c ≤ 70 then some (c - 55)
  else none

/-- Parse a hex character string back into bytes, two characters per byte,
stopping at the first invalid character or odd tail
(`Buffer.from(hash, "hex")`). -/
def hexDecodeChars : List Nat → List Nat
  | c1 :: c2 :: rest =>
    match hexVal c1, hexVal c2 with
    | some d1, some d2 => (d1 * 16 + d2) :: hexDecodeChars rest
    | _, _ => []
  | _ => []

/-- A key part, after `KeyPart` of `src/valkeyrie.ts`: `Uint8Array`,
string (as UTF-8 bytes), `bigint` (non-negative), `number` (as its IEEE-754
bit pattern) or boolean. -/
inductive KeyPart where
  | bytes (b : List Nat)
  | str (s : List Nat)
  | int (n : Nat)
  | num (bits : Nat)
  | boolean (b : Bool)
  deriving DecidableEq, Repr

/-- The tag byte the encoder emits for each part type. -/
def tagOf : KeyPart → Nat
  | .bytes _ => 1
  | .str _ => 2
  | .int _ => 3
  | .num _ => 4
  | .boolean _ => 5

/-- Payload of a bigint part: `part.toString(16).padStart(16, "0")` parsed
back to bytes by `Buffer.from(hex, "hex")`, copied into the 8 payload
slots of the 10-byte buffer (`keyToBuffer`, bigint branch). -/
def intPayload (n : Nat) : List Nat :=
  (hexPairsToBytes (padZeros 16 (hexDigits n))).take 8

/-- Per-part encoding of `keyToBuffer`: tag byte, payload, `0x00`
terminator. -/
def encodePart : KeyPart → List Nat
  | .bytes b => 1 :: b ++ [0]
  | .str s => 2 :: s ++ [0]
  | .int n => 3 :: intPayload n ++ [0]
  | .num bits => 4 :: beDigits 256 8 bits ++ [0]
  | .boolean b => 5 :: (if b then 1 else 0) :: [0]

/-- The concatenated per-part encodings (`Buffer.concat` in
`keyToBuffer`). -/
def keyBytes (k : List KeyPart) : List Nat :=
  (k.map encodePart).flatten

/-- The operation mode `keyToBuffer` is called with; it only selects the
error message, the size threshold in the source is `2048` in both modes. -/
inductive KeyOp where
  | write
  | read
  deriving DecidableEq, Repr

/-- `keyToBuffer`: encode all parts and fail (`Key too large`) when the
total length exceeds 2048 bytes — the source applies the same threshold in
both modes, only the message mentions 2049 for reads. -/
def keyToBuffer (k : List KeyPart) (op : KeyOp) : Option (List Nat) :=
  let full := keyBytes k
  if full.length > 2048 then none else some full

/-- `hashKey`: hex rendering (as character codes) of the encoded key. -/
def hashKey (k : List KeyPart) (op : KeyOp) : Option (List Nat) :=
  (keyToBuffer k op).map hexEncodeBytes

/-- Terminator scan of the `0x01` (Uint8Array) branch of `decodeKeyHash`:
walk the buffer; a `0x00` ends the payload only when it is the last byte
or the next byte is a valid tag (`0x01`..`0x05`); reaching the end of the
buffer without a terminator is an error. Returns payload and remainder
after the terminator. -/
def scanBytesPayload : List Nat → Option (List Nat × List Nat)
  | [] => none
  | 0 :: rest =>
    match rest with
    | [] => some ([], [])
    | t :: _ =>
      if t = 1 ∨ t = 2 ∨ t = 3 ∨ t = 4 ∨ t = 5 then some ([], rest)
      else (scanBytesPayload rest).map fun pr => (0 :: pr.1, pr.2)
  | b :: rest => (scanBytesPayload rest).map fun pr => (b :: pr.1, pr.2)

/-- Terminator scan of the `0x02` (string) branch of `decodeKeyHash`: the
payload runs to the first `0x00`; reaching the end without one is an
error. -/
def splitAtZero : List Nat → Option (List Nat × List Nat)
  | [] => none
  | 0 :: rest => some ([], rest)
  | b :: rest => (splitAtZero rest).map fun pr => (b :: pr.1, pr.2)

theorem scanBytesPayload_length : ∀ l p r, scanBytesPayload l = some (p, r) →
    r.length ≤ l.length := by
  intro l
  induction l with
  | nil => intro p r h; simp [scanBytesPayload] at h
  | cons b rest ih =>
    intro p r h
    cases b with
    | zero =>
      cases rest with
      | nil =>
        simp only [scanBytesPayload, Option.some.injEq, Prod.mk.injEq] at h
        rw [← h.2]
        simp
      | cons t rest' =>
        simp only [scanBytesPayload] at h
        by_cases ht : t = 1 ∨ t = 2 ∨ t = 3 ∨ t = 4 ∨ t = 5
        · rw [if_pos ht] at h
          simp only [Option.some.injEq, Prod.mk.injEq] at h
          rw [← h.2]
          simp
        · rw [if_neg ht, Option.map_eq_some'] at h
          obtain ⟨⟨p', r'⟩, hq, hh⟩ := h
          simp only [Prod.mk.injEq] at hh
          have := ih p' r' hq
          rw [← hh.2]
          simp only [List.length_cons] at this ⊢
          omega
    | succ b' =>
      simp only [scanBytesPayload, Option.map_eq_some'] at h
      obtain ⟨⟨p', r'⟩, hq, hh⟩ := h
      simp only [Prod.mk.injEq] at hh
      have := ih p' r' hq
      rw [← hh.2]
      simp
      omega

theorem splitAtZero_length : ∀ l p r, splitAtZero l = some (p, r) →
    r.length ≤ l.length := by
  intro l
  induction l with
  | nil => intro p r h; simp [splitAtZero] at h
  | cons b rest ih =>
    intro p r h
    cases b with
    | zero =>
      simp only [splitAtZero, Option.some.injEq, Prod.mk.injEq] at h
      rw [← h.2]
      simp
    | succ b' =>
      simp only [splitAtZero, Option.map_eq_some'] at h
      obtain ⟨⟨p', r'⟩, hq, hh⟩ := h
      simp only [Prod.mk.injEq] at hh
      have := ih p' r' hq
      rw [← hh.2]
      simp
      omega

/-- The positional decoder loop of `decodeKeyHash`, over the raw bytes:
dispatch on the tag byte, recover the payload, and continue after the
terminator; any malformed input is an error (`none`). -/
def decodeKeyBytes : List Nat → Option (List KeyPart)
  | [] => some []
  | 1 :: rest =>
    match h : scanBytesPayload rest with
    | none => none
    | some pr => (decodeKeyBytes pr.2).map fun ps => .bytes pr.1 :: ps
  | 2 :: rest =>
    match h : splitAtZero rest with
    | none => none
    | some pr => (decodeKeyBytes pr.2).map fun ps => .str pr.1 :: ps
  | 3 :: b0 :: b1 :: b2 :: b3 :: b4 :: b5 :: b6 :: b7 :: t :: r =>
    if t = 0 then
      (decodeKeyBytes r).map fun ps =>
        .int (ofDigits 256 [b0, b1, b2, b3, b4, b5, b6, b7]) :: ps
    else none
  | 4 :: b0 :: b1 :: b2 :: b3 :: b4 :: b5 :: b6 :: b7 :: t :: r =>
    if t = 0 then
      (decodeKeyBytes r).map fun ps =>
        .num (ofDigits 256 [b0, b1, b2, b3, b4, b5, b6, b7]) :: ps
    else none
  | 5 :: v :: t :: r =>
    if t = 0 then (decodeKeyBytes r).map fun ps => .boolean (v = 1) :: ps
    else none
  | _ => none
  termination_by l => l.length
  decreasing_by
  · have := scanBytesPayload_length _ _ _ h
    simp only [List.length_cons]
    omega
  · have := splitAtZero_length _ _ _ h
    simp only [List.length_cons]
    omega
  all_goals simp; omega

/-- `decodeKeyHash`: parse the hex string back to bytes, then run the
positional decoder. -/
def decodeKeyHash (hash : List Nat) : Option (List KeyPart) :=
  decodeKeyBytes (hexDecodeChars hash)

/-- The payload emitted for a part, between the tag byte and the
terminator. -/
def partPayload : KeyPart → List Nat
  | .bytes b => b
  | .str s => s
  | .int n => intPayload n
  | .num bits => beDigits 256 8 bits
  | .boolean b => [if b then 1 else 0]

/-- Three-way comparison of naturals, written out so it unfolds
predictably. -/
def cmpN (m n : Nat) : Ordering :=
  if m < n then .lt else if m = n then .eq else .gt

/-- Byte-lexicographic three-way comparison of byte (or character code)
lists: a strict prefix sorts first. -/
def cmpBytes : List Nat → List Nat → Ordering
  | [], [] => .eq
  | [], _ :: _ => .lt
  | _ :: _, [] => .gt
  | a :: as, b :: bs => (cmpN a b).then (cmpBytes as bs)

/-- The specified order on single key parts (*tag-typed* order, spec sec 3
and sec 4.1): parts of different types compare by tag byte; equal types
compare payload-naturally — bytewise for byte-strings and strings,
numerically for integers, by big-endian bit pattern for doubles (the
order the encoding realises), and `false < true` for booleans. -/
def partCmp (a b : KeyPart) : Ordering :=
  match a, b with
  | .bytes x, .bytes y => cmpBytes x y
  | .str x, .str y => cmpBytes x y
  | .int m, .int n => cmpN m n
  | .num m, .num n => cmpN m n
  | .boolean x, .boolean y => cmpN (cond x 1 0) (cond y 1 0)
  | a, b => cmpN (tagOf a) (tagOf b)

/-- The specified tuple-lexicographic order on keys: compare parts left to
right, a strict prefix sorting first. -/
def keyCmp : List KeyPart → List KeyPart → Ordering
  | [], [] => .eq
  | [], _ :: _ => .lt
  | _ :: _, [] => .gt
  | a :: as, b :: bs => (partCmp a b).then (keyCmp as bs)

/-- The key parts the amended round-trip and order claims range over:
byte-string and string parts are genuine bytes and contain no `0x00`
(the codec's terminator scheme is ambiguous on embedded `NUL`s), integers
and double bit patterns fit 64 bits. -/
def goodPart : KeyPart → Prop
  | .bytes b => (∀ x ∈ b, x < 256) ∧ 0 ∉ b
  | .str s => (∀ x ∈ s, x < 256) ∧ 0 ∉ s
  | .int n => n < 2 ^ 64
  | .num bits => bits < 2 ^ 64
  | .boolean _ => True

instance : DecidablePred goodPart := by
  intro p
  cases p <;> dsimp [goodPart] <;> infer_instance

/-- A byte list that is empty or starts with a valid tag byte — the shape
of every decoder continuation. -/
def tagged : List Nat → Prop
  | [] => True
  | t :: _ => t = 1 ∨ t = 2 ∨ t = 3 ∨ t = 4 ∨ t = 5

instance : DecidablePred tagged := by
  intro l
  cases l <;> dsimp [tagged] <;> infer_instance

/-- One call of `generateVersionstamp` on the stored counter: take the
wall clock in microseconds; if the counter is behind, jump to it,
otherwise add one. -/
def vsStep (last now : Nat) : Nat :=
  if last < now then now else last + 1

/-- The counter values produced by a sequence of calls, given the wall
clock reading observed at each call. -/
def vsRun : Nat → List Nat → List Nat
  | _, [] => []
  | last, now :: rest => vsStep last now :: vsRun (vsStep last now) rest

/-- The rendered stamp: `toString(16).padStart(20, "0")`, as character
codes. -/
def vsStamp (n : Nat) : List Nat :=
  let s := (hexDigits n).map hexChar
  List.replicate (20 - s.length) 48 ++ s

/-- A stored value. The engine treats values opaquely except for the U64
counter sentinel (`KvU64`, whose source file is absent from `src/`;
modelled from the spec: a counter wraps a 64-bit unsigned integer and its
construction enforces `[0, 2^64)`). A non-counter value is carried by its
serialized bytes. -/
inductive Value where
  | u64 (n : Nat)
  | plain (blob : List Nat)
  deriving DecidableEq, Repr

/-- Well-formedness the `KvU64` constructor guarantees (spec sec 3):
counter values lie in `[0, 2^64)`. -/
def valueWf : Value → Prop
  | .u64 n => n < 2 ^ 64
  | .plain _ => True

instance : DecidablePred valueWf := by
  intro v
  cases v <;> dsimp [valueWf] <;> infer_instance

/-- The `node:v8` serialization of the JS value `null` (the stored value
`null` is legal: `set(key, null)` serializes and round-trips it). The
codec is external to the repository and the engine never inspects these
bytes — it only compares the deserialized value against `null`
(`currentValue.value === null` in `executeAtomicOperation`) — so the
model designates the codec's output for `null`: the format header
`0xff 0x0f` followed by the `null` tag `'0'`. -/
def nullBlob : List Nat := [255, 15, 48]

/-- `currentValue.value === null` for a *present* row: true exactly when
the stored blob is the serialization of `null` (the v8 round-trip
deserializes to `null` only for it); a counter is never `null`. -/
def isNullValue : Value → Bool
  | .u64 _ => false
  | .plain b => decide (b = nullBlob)

/-- One row of the `kv_store` table: value, versionstamp (character
codes), optional absolute expiry. -/
structure Row where
  value : Value
  versionstamp : List Nat
  expiresAt : Option Nat
  deriving DecidableEq, Repr

/-- The table, as an association list from `key_hash` (character codes of
the hex rendering) to rows, kept sorted ascending by hash — the order the
`TEXT PRIMARY KEY` B-tree maintains and `ORDER BY key_hash` returns. -/
abbrev Store := List (List Nat × Row)

/-- Row lookup by exact hash. -/
def storeGet : Store → List Nat → Option Row
  | [], _ => none
  | (k, r) :: rest, h => if k = h then some r else storeGet rest h

/-- `INSERT OR REPLACE`: replace the row with this hash, or insert it at
its sorted position. -/
def storeSet : Store → List Nat → Row → Store
  | [], h, r => [(h, r)]
  | (k, q) :: rest, h, r =>
    match cmpBytes h k with
    | .lt => (h, r) :: (k, q) :: rest
    | .eq => (h, r) :: rest
    | .gt => (k, q) :: storeSet rest h r

/-- `DELETE WHERE key_hash = ?`: drop every row with this hash. -/
def storeDelete : Store → List Nat → Store
  | [], _ => []
  | (k, q) :: rest, h =>
    if k = h then storeDelete rest h else (k, q) :: storeDelete rest h

/-- The expiry filter every read applies:
`expires_at IS NULL OR expires_at > now`. -/
def rowLive (now : Nat) (r : Row) : Bool :=
  match r.expiresAt with
  | none => true
  | some e => decide (now < e)

/-- Driver `get`: the row at this hash, if present and unexpired. -/
def driverGetRow (s : Store) (now : Nat) (h : List Nat) : Option Row :=
  (storeGet s h).bind fun r => if rowLive now r then some r else none

/-- Errors the engine raises. A JS `TypeError` is distinguished from a
plain `Error` because `executeAtomicOperation` re-throws only the
former. -/
inductive Err where
  | typeError (msg : String)
  | plain (msg : String)
  deriving DecidableEq, Repr

/-- Serialized length of a value under the `node:v8` codec. The codec is
external to the repository; the engine observes only the serialized
length (for the size check in `serializeValue`) and the round-trip, so a
plain value is identified with its serialized bytes and a counter's
bigint serializes to a fixed-size small buffer. -/
def v8SerializeBytes : Value → List Nat
  | .u64 n => beDigits 256 8 n
  | .plain b => b

/-- The sqlite driver's `serializeValue`: V8-serialize (a counter
serializes its inner bigint and sets the `is_u64` flag) and reject
serialized values longer than `65536 + 7` bytes. -/
def serializeValueV8 (v : Value) : Except Err (List Nat × Nat) :=
  let isU64 : Nat := match v with | .u64 _ => 1 | .plain _ => 0
  let serialized := v8SerializeBytes v
  if serialized.length > 65536 + 7 then .error (.typeError "Value too large (max 65536 bytes)")
  else .ok (serialized, isU64)

/-- The sqlite driver's `deserializeValue`: V8-deserialize and rewrap in
`KvU64` when the `is_u64` flag is set. -/
def deserializeValueV8 (bytes : List Nat) (isU64 : Nat) : Value :=
  if isU64 ≠ 0 then .u64 (ofDigits 256 bytes) else .plain bytes

/-- Driver `set`: serialize (which may fail the size check) and
`INSERT OR REPLACE` the row. -/
def driverSet (s : Store) (h : List Nat) (v : Value) (vs : List Nat)
    (expiresAt : Option Nat) : Except Err Store :=
  if (v8SerializeBytes v).length > 65536 + 7 then
    .error (.typeError "Value too large (max 65536 bytes)")
  else .ok (storeSet s h ⟨v, vs, expiresAt⟩)

/-- The engine's `get`: reject the empty key before any I/O, hash in read
mode, read through the expiry filter; absent rows give a `null`
value/versionstamp pair (`none` here). -/
def engineGet (s : Store) (now : Nat) (k : List KeyPart) :
    Except Err (Option (Value × List Nat)) :=
  if k = [] then .error (.plain "Key cannot be empty")
  else
    match hashKey k .read with
    | none => .error (.typeError "Key too large for read (max 2049 bytes)")
    | some h => .ok ((driverGetRow s now h).map fun r => (r.value, r.versionstamp))

/-- The engine's `set`: reject the empty key, hash in write mode, stamp
and write; `expireIn` is applied only when truthy (`0` behaves like
absent). -/
def engineSet (s : Store) (now : Nat) (k : List KeyPart) (v : Value)
    (expireIn : Option Nat) (vs : List Nat) : Except Err Store :=
  if k = [] then .error (.plain "Key cannot be empty")
  else
    match hashKey k .write with
    | none => .error (.typeError "Key too large for write (max 2048 bytes)")
    | some h =>
      driverSet s h v vs
        (match expireIn with
         | some e => if e = 0 then none else some (now + e)
         | none => none)

/-- The engine's `delete`: hash (read mode, the default — no empty-key
check) and issue the store delete. -/
def engineDelete (s : Store) (k : List KeyPart) : Except Err Store :=
  match hashKey k .read with
  | none => .error (.typeError "Key too large for read (max 2049 bytes)")
  | some h => .ok (storeDelete s h)

/-- An atomic check: key plus expected versionstamp, `none` meaning
"absent or expired". -/
structure Check where
  key : List KeyPart
  versionstamp : Option (List Nat)

/-- A mutation of an atomic batch. Counter operands are `KvU64` values,
modelled as naturals (well-formedness `< 2^64` from the spec-modelled
`KvU64` constructor). -/
inductive Mutation where
  | set (key : List KeyPart) (value : Value) (expireIn : Option Nat)
  | del (key : List KeyPart)
  | sum (key : List KeyPart) (operand : Nat)
  | max (key : List KeyPart) (operand : Nat)
  | min (key : List KeyPart) (operand : Nat)

/-- The check loop of `executeAtomicOperation`: read each key in order
through the engine's `get`; the first mismatch yields `false` (the body
returns `ok: false`). -/
def runChecks (s : Store) (now : Nat) : List Check → Except Err Bool
  | [] => .ok true
  | c :: rest =>
    match engineGet s now c.key with
    | .error e => .error e
    | .ok r =>
      if r.map Prod.snd = c.versionstamp then runChecks s now rest else .ok false

/-- The shared body of the `sum`/`max`/`min` branches: hash the key, read
the current entry, use the operand when `currentValue.value === null` —
which holds both when the key is absent/expired and when a present row
stores the value `null` (valkeyrie.ts:785) — raise a `TypeError` when a
present, non-`null` value is not a counter, else combine and write with
the batch versionstamp. -/
def counterMutate (s : Store) (now : Nat) (vs : List Nat) (k : List KeyPart)
    (operand : Nat) (f : Nat → Nat) (msg : String) : Except Err Store :=
  match hashKey k .read with
  | none => .error (.typeError "Key too large for read (max 2049 bytes)")
  | some h =>
    match engineGet s now k with
    | .error e => .error e
    | .ok none => driverSet s h (.u64 operand) vs none
    | .ok (some (v, _)) =>
      if isNullValue v then driverSet s h (.u64 operand) vs none
      else
        match v with
        | .u64 c => driverSet s h (.u64 (f c)) vs none
        | .plain _ => .error (.typeError msg)

/-- Apply one mutation of a batch (`executeAtomicOperation`, mutation
loop): the key is hashed in the default (read) mode; `sum` wraps modulo
`2^64`, `max`/`min` compare numerically. -/
def applyMutation (s : Store) (now : Nat) (vs : List Nat) : Mutation → Except Err Store
  | .set k v expireIn =>
    match hashKey k .read with
    | none => .error (.typeError "Key too large for read (max 2049 bytes)")
    | some h =>
      driverSet s h v vs
        (match expireIn with
         | some e => if e = 0 then none else some (now + e)
         | none => none)
  | .del k =>
    match hashKey k .read with
    | none => .error (.typeError "Key too large for read (max 2049 bytes)")
    | some h => .ok (storeDelete s h)
  | .sum k v =>
    counterMutate s now vs k v (fun c => (c + v) % 2 ^ 64)
      "Failed to perform sum mutation on a non-U64 value in the database"
  | .max k v =>
    counterMutate s now vs k v (fun c => if c > v then c else v)
      "Failed to perform max mutation on a non-U64 value in the database"
  | .min k v =>
    counterMutate s now vs k v (fun c => if c < v then c else v)
      "Failed to perform min mutation on a non-U64 value in the database"

/-- Apply the mutations of a batch in insertion order, all stamped with
the one batch versionstamp. -/
def runMutations (s : Store) (now : Nat) (vs : List Nat) : List Mutation → Except Err Store
  | [] => .ok s
  | m :: rest =>
    match applyMutation s now vs m with
    | .error e => .error e
    | .ok s2 => runMutations s2 now vs rest

/-- Outcome of `executeAtomicOperation`: committed with the batch
versionstamp, `ok: false`, or a re-thrown `TypeError`. -/
inductive AtomicResult where
  | committed (vs : List Nat)
  | notOk
  | raised (msg : String)
  deriving DecidableEq, Repr

/-- `executeAtomicOperation`: inside `withTransaction`, run the checks and
then the mutations. An error rolls the transaction back, restoring the
initial store; a `TypeError` is re-thrown, any other error becomes
`ok: false`; a failed check returns `ok: false` with nothing written. -/
def executeAtomic (s : Store) (now : Nat) (vs : List Nat) (checks : List Check)
    (muts : List Mutation) : Store × AtomicResult :=
  match runChecks s now checks with
  | .error (.typeError m) => (s, .raised m)
  | .error (.plain _) => (s, .notOk)
  | .ok false => (s, .notOk)
  | .ok true =>
    match runMutations s now vs muts with
    | .error (.typeError m) => (s, .raised m)
    | .error (.plain _) => (s, .notOk)
    | .ok s2 => (s2, .committed vs)

/-- A value serializer plugin, as far as the driver boundary is concerned
(`serializers/serializer.ts`). -/
structure SerializerModel where
  serialize : Value → List Nat
  deserialize : List Nat → Value

/-- The driver surface relevant to serializer wiring. -/
structure DriverModel where
  dbPath : String
  serializeValue : Value → Except Err (List Nat × Nat)
  deserializeValue : List Nat → Nat → Value

/-- The body `defineDriver` receives in `sqlite-driver.ts`: it takes only
the `path` parameter (defaulting to in-memory) and bakes the `node:v8`
codec into the driver. -/
def sqliteDriverInit (path : Option String) : DriverModel :=
  { dbPath := path.getD ":memory:"
    serializeValue := serializeValueV8
    deserializeValue := deserializeValueV8 }

/-- `sqliteDriver` as `Valkeyrie.open` calls it: `open` passes
`options.serializer` as a second argument, but the factory's parameter
list has only `path`, so the serializer argument is dropped. -/
def sqliteDriver (path : Option String) (serializerInit : Option SerializerModel) :
    DriverModel :=
  sqliteDriverInit path

-- ---------------------------------------------------------------------
-- List iteration and cursors
-- ---------------------------------------------------------------------

/-- Standard base64 digit characters (`A-Z a-z 0-9 + /`), the alphabet of
`Buffer.toString("base64")`. -/
def b64Char (v : Nat) : Nat :=
  if v < 26 then 65 + v
  else if v < 52 then 97 + (v - 26)
  else if v < 62 then 48 + (v - 52)
  else if v = 62 then 43
  else 47

/-- `Buffer.toString("base64")`: encode three bytes as four characters,
padding a short final group with `=` (61). -/
def base64Encode : List Nat → List Nat
  | [] => []
  | [b1] => [b64Char (b1 / 4), b64Char (b1 % 4 * 16), 61, 61]
  | [b1, b2] =>
    [b64Char (b1 / 4), b64Char (b1 % 4 * 16 + b2 / 16), b64Char (b2 % 16 * 4), 61]
  | b1 :: b2 :: b3 :: rest =>
    b64Char (b1 / 4) :: b64Char (b1 % 4 * 16 + b2 / 16)
      :: b64Char (b2 % 16 * 4 + b3 / 64) :: b64Char (b3 % 64) :: base64Encode rest

/-- `replace(/=+$/, "")`: strip trailing `=` characters. -/
def stripPad (l : List Nat) : List Nat :=
  (l.reverse.dropWhile fun c => decide (c = 61)).reverse

/-- Value of a base64 digit character (padding and foreign characters
never occur in the inputs this model decodes). -/
def b64Val (c : Nat) : Nat :=
  if 65 ≤ c ∧ c ≤ 90 then c - 65
  else if 97 ≤ c ∧ c ≤ 122 then c - 71
  else if 48 ≤ c ∧ c ≤ 57 then c + 4
  else if c = 43 then 62
  else if c = 47 then 63
  else 0

/-- `Buffer.from(cursor, "base64")` on an unpadded string: four characters
give three bytes; a final group of three characters gives two bytes, of
two characters one byte. -/
def base64Decode : List Nat → List Nat
  | c1 :: c2 :: c3 :: c4 :: rest =>
    (b64Val c1 * 4 + b64Val c2 / 16)
      :: (b64Val c2 % 16 * 16 + b64Val c3 / 4)
      :: (b64Val c3 % 4 * 64 + b64Val c4) :: base64Decode rest
  | [c1, c2, c3] =>
    [b64Val c1 * 4 + b64Val c2 / 16, b64Val c2 % 16 * 16 + b64Val c3 / 4]
  | [c1, c2] => [b64Val c1 * 4 + b64Val c2 / 16]
  | _ => []

/-- `getCursorFromKey`: the key's encoding (read mode, the default),
base64-rendered with trailing padding stripped. -/
def getCursorFromKey (k : List KeyPart) : Option (List Nat) :=
  (keyToBuffer k .read).map fun b => stripPad (base64Encode b)

/-- `decodeCursorValue`: base64-decode and take the bytes strictly between
the first byte (assumed to be the `0x02` tag) and the last (assumed
terminator), read as a UTF-8 string. -/
def decodeCursorValue (cursor : List Nat) : List Nat :=
  ((base64Decode cursor).drop 1).dropLast

/-- JS truthiness of the `cursor` option: absent or the empty string both
mean "no cursor". -/
def cursorGiven : Option (List Nat) → Option (List Nat)
  | some c => if c = [] then none else some c
  | none => none

/-- `calculatePrefixBounds` (non-empty prefix): without a cursor the range
is `[prefixHash, prefixHash + "\xff")`; with one, the cursor's value is
re-keyed under the prefix as a string part and the range resumes strictly
after it (ascending) or ends at it (descending). -/
def calculatePfxBounds (pfx : List KeyPart) (cursor : Option (List Nat))
    (reverse : Bool) : Option (List Nat × List Nat) := do
  let ph ← hashKey pfx .read
  match cursorGiven cursor with
  | some c =>
    let cv := decodeCursorValue c
    let ch ← hashKey (pfx ++ [.str cv]) .read
    pure (if reverse then (ph, ch) else (ch ++ [0], ph ++ [255]))
  | none => pure (ph, ph ++ [255])

/-- `calculateEmptyPrefixBounds`: the raw cursor string itself is used as
a hash bound; `"￿"` (code 65535) is the upper sentinel. -/
def calculateEmptyPfxBounds (cursor : Option (List Nat)) (reverse : Bool) :
    List Nat × List Nat :=
  match cursorGiven cursor with
  | some c => if reverse then ([], c) else (c ++ [0], [65535])
  | none => ([], [65535])

/-- `getBoundsForPrefix`: dispatch on empty/non-empty prefix, also
returning the prefix hash the driver excludes. -/
def getBoundsForPfx (pfx : List KeyPart) (cursor : Option (List Nat))
    (reverse : Bool) : Option (List Nat × List Nat × List Nat) :=
  if pfx = [] then
    let b := calculateEmptyPfxBounds cursor reverse
    some (b.1, b.2, [])
  else do
    let ph ← hashKey pfx .read
    let b ← calculatePfxBounds pfx cursor reverse
    pure (b.1, b.2, ph)

/-- The driver's `list` row filter:
`key_hash >= start AND key_hash < end AND key_hash != prefix` plus the
expiry filter. -/
def rowInRange (startH endH pfxH : List Nat) (now : Nat) (e : List Nat × Row) : Bool :=
  decide (¬ cmpBytes e.1 startH = .lt) && decide (cmpBytes e.1 endH = .lt)
    && decide (¬ e.1 = pfxH) && rowLive now e.2

/-- Driver `list`: the matching rows in hash order (the store is kept
sorted ascending), reversed for `ORDER BY ... DESC`, truncated by
`LIMIT`. -/
def driverList (s : Store) (startH endH pfxH : List Nat) (now cnt : Nat)
    (reverse : Bool) : List (List Nat × Row) :=
  let rows := s.filter (rowInRange startH endH pfxH now)
  (if reverse then rows.reverse else rows).take cnt

/-- The batch loop of `listBatch`: fetch up to
`min(batchSize, remaining)` rows (just `batchSize` when the limit is
infinite, `remaining = none`), stop on an empty or short batch, otherwise
advance the bounds past the last row (`hash + "\0"` ascending, `hash`
descending) and continue. `fuel` only bounds the recursion; every run in
the theorems below finishes within it. -/
def listBatchLoop (s : Store) (now : Nat) (pfxH : List Nat) (batchSize : Nat)
    (reverse : Bool) : Nat → List Nat → List Nat → Option Nat → List (List Nat × Row)
  | 0, _, _, _ => []
  | fuel + 1, startH, endH, remaining =>
    let go : Bool := match remaining with | none => true | some r => decide (0 < r)
    if go then
      let cbs := match remaining with | none => batchSize | some r => Nat.min batchSize r
      let results := driverList s startH endH pfxH now cbs reverse
      if results.length = 0 then []
      else if results.length < cbs then results
      else
        let remaining2 : Option Nat :=
          match remaining with | none => none | some r => some (r - results.length)
        match results.getLast? with
        | none => results
        | some last =>
          results ++
            (if reverse then
              listBatchLoop s now pfxH batchSize reverse fuel startH last.1 remaining2
            else
              listBatchLoop s now pfxH batchSize reverse fuel (last.1 ++ [0]) endH remaining2)
    else []

/-- Drain `list` over a prefix selector: compute bounds, reject an
oversized `batchSize` (`Too many entries`), and run the batch loop to
exhaustion. -/
def listRun (s : Store) (now : Nat) (pfx : List KeyPart) (cursor : Option (List Nat))
    (limit : Option Nat) (batchSize : Nat) (reverse : Bool) :
    Option (List (List Nat × Row)) := do
  let b ← getBoundsForPfx pfx cursor reverse
  if batchSize > 1000 then none
  else pure (listBatchLoop s now b.2.2 batchSize reverse (s.length + 1) b.1 b.2.1 limit)

/-- Decode a fetched row into the entry the iterator yields. -/
def entryOfRow (e : List Nat × Row) : Option (List KeyPart × Value × List Nat) :=
  (decodeKeyHash e.1).map fun k => (k, e.2.value, e.2.versionstamp)

/-- The entries a full drain of `list` yields over a prefix selector. -/
def listEntries (s : Store) (now : Nat) (pfx : List KeyPart)
    (cursor : Option (List Nat)) (limit : Option Nat) (batchSize : Nat)
    (reverse : Bool) : Option (List (List KeyPart × Value × List Nat)) :=
  (listRun s now pfx cursor limit batchSize reverse).bind fun rows =>
    rows.mapM entryOfRow

/-- JS falsiness of a key part, as tested by the cursor getter
(`if (!lastPart) return ""`): the empty string, `0n`, `0`/`-0`/`NaN`
(as double bit patterns) and `false` are falsy; objects never are. -/
def partFalsy : KeyPart → Bool
  | .str s => decide (s = [])
  | .int n => decide (n = 0)
  | .num bits =>
    decide (bits = 0 ∨ bits = 2 ^ 63 ∨
      (bits / 2 ^ 52 % 2 ^ 11 = 2047 ∧ ¬ bits % 2 ^ 52 = 0))
  | .boolean b => !b
  | .bytes _ => false

/-- The iterator's `cursor` property after `i` yields: empty before any
yield or when the last key or its last part is falsy, else the cursor of
the one-part key holding the last yielded key's last part. -/
def cursorAfter (entries : List (List KeyPart × Value × List Nat)) (i : Nat) :
    Option (List Nat) :=
  match (entries.take i).getLast? with
  | none => some []
  | some e =>
    match e.1.getLast? with
    | none => some []
    | some p => if partFalsy p then some [] else getCursorFromKey [p]

/-- Strict ascending hash order — the invariant of the sqlite primary-key
index the sorted-store model relies on. -/
def storeSorted (s : Store) : Prop :=
  List.Chain' (fun a b => cmpBytes a.1 b.1 = .lt) s

instance : DecidablePred storeSorted := fun s =>
  inferInstanceAs (Decidable
    (List.Chain' (fun (a b : List Nat × Row) => cmpBytes a.1 b.1 = .lt) s))

/-- An item stored under a prefix: the string last part (as UTF-8 bytes),
the value and the versionstamp. -/
abbrev PfxItem := List Nat × Value × List Nat

/-- The `kv_store` row a `set` of `pfx ++ [str part]` produces, given the
prefix hash: the hex hash extends the prefix hash by the hex rendering of
the string part's encoding; no expiry. -/
def rowOfItem (ph : List Nat) (it : PfxItem) : List Nat × Row :=
  (ph ++ hexEncodeBytes (2 :: it.1 ++ [0]), ⟨it.2.1, it.2.2, none⟩)

/-- The entry `list` yields for such a row. -/
def entryOfItem (pfx : List KeyPart) (it : PfxItem) :
    List KeyPart × Value × List Nat :=
  (pfx ++ [.str it.1], it.2.1, it.2.2)

/-- The string parts the amended cursor claim ranges over: non-empty
`NUL`-free byte strings. -/
def goodItem (it : PfxItem) : Prop :=
  (∀ x ∈ it.1, x < 256) ∧ 0 ∉ it.1 ∧ it.1 ≠ []

instance : DecidablePred goodItem := by
  intro it
  dsimp [goodItem]
  infer_instance

-- ---------------------------------------------------------------------
-- Digit and hex lemmas
-- ---------------------------------------------------------------------

theorem beDigits_length (B w n : Nat) : (beDigits B w n).length = w := by
  induction w generalizing n with
  | zero => rfl
  | succ w ih => simp [beDigits, ih]

theorem beDigits_lt (B w n : Nat) (hB : 0 < B) : ∀ d ∈ beDigits B w n, d < B := by
  induction w generalizing n with
  | zero => simp [beDigits]
  | succ w ih =>
    intro d hd
    simp only [beDigits, List.mem_append, List.mem_singleton] at hd
    rcases hd with hd | hd
    · exact ih (n / B) d hd
    · subst hd
      exact Nat.mod_lt _ hB

theorem beDigits_zero (B w : Nat) : beDigits B w 0 = List.replicate w 0 := by
  induction w with
  | zero => rfl
  | succ w ih => simp [beDigits, Nat.zero_div, ih, List.replicate_succ']

theorem ofDigits_append_single (B : Nat) (l : List Nat) (d : Nat) :
    ofDigits B (l ++ [d]) = ofDigits B l * B + d := by
  simp [ofDigits, List.foldl_append]

theorem ofDigits_beDigits (B w n : Nat) (h : n < B ^ w) :
    ofDigits B (beDigits B w n) = n := by
  induction w generalizing n with
  | zero =>
    have : n = 0 := by simpa using h
    simp [this, beDigits, ofDigits]
  | succ w ih =>
    have hB : 0 < B := by
      rcases Nat.eq_zero_or_pos B with hb | hb
      · subst hb; simp at h
      · exact hb
    have hdiv : n / B < B ^ w := by
      rw [Nat.div_lt_iff_lt_mul hB]
      calc n < B ^ (w + 1) := h
        _ = B ^ w * B := by ring
    simp only [beDigits, ofDigits_append_single, ih (n / B) hdiv]
    rw [Nat.mul_comm]
    exact Nat.div_add_mod n B

theorem hexDigits_lt16 (n : Nat) : ∀ d ∈ hexDigits n, d < 16 := by
  induction n using Nat.strong_induction_on with
  | _ n ih =>
    rw [hexDigits]
    by_cases h : n < 16
    · simp [h]
    · simp only [dif_neg h, List.mem_append, List.mem_singleton]
      intro d hd
      rcases hd with hd | hd
      · exact ih (n / 16) (Nat.div_lt_self (by omega) (by omega)) d hd
      · subst hd
        exact Nat.mod_lt _ (by omega)

theorem padZeros_hexDigits : ∀ k n, n < 16 ^ (k + 1) →
    padZeros (k + 1) (hexDigits n) = beDigits 16 (k + 1) n := by
  intro k
  induction k with
  | zero =>
    intro n h
    have h16 : n < 16 := by simpa using h
    rw [hexDigits]
    simp [h16, padZeros, beDigits, Nat.mod_eq_of_lt h16, Nat.div_eq_of_lt h16]
  | succ k ih =>
    intro n h
    by_cases h16 : n < 16
    · rw [hexDigits]
      have hd : n / 16 = 0 := Nat.div_eq_of_lt h16
      simp [h16, padZeros, beDigits, hd, beDigits_zero, Nat.mod_eq_of_lt h16,
        List.replicate_succ']
    · rw [hexDigits]
      simp only [dif_neg h16]
      have hdiv : n / 16 < 16 ^ (k + 1) := by
        rw [Nat.div_lt_iff_lt_mul (by omega)]
        calc n < 16 ^ (k + 1 + 1) := h
          _ = 16 ^ (k + 1) * 16 := by ring
      have hih := ih (n / 16) hdiv
      simp only [padZeros, List.length_append, List.length_singleton] at hih ⊢
      have hlen : k + 1 + 1 - ((hexDigits (n / 16)).length + 1)
          = k + 1 - (hexDigits (n / 16)).length := by omega
      rw [hlen, ← List.append_assoc, hih]
      simp [beDigits]

theorem hexPairs_append_pair : ∀ l a b, l.length % 2 = 0 →
    hexPairsToBytes (l ++ [a, b]) = hexPairsToBytes l ++ [a * 16 + b] := by
  intro l
  induction l using hexPairsToBytes.induct with
  | case1 d1 d2 rest ih =>
    intro a b h
    simp only [List.length_cons] at h
    simp only [List.cons_append, hexPairsToBytes]
    simp only [List.append_eq]
    rw [ih a b (by omega)]
  | case2 l h2 =>
    intro a b h
    match l, h2, h with
    | [], _, _ => rfl
    | [x], _, h => simp at h
    | x :: y :: rest, h2, _ => exact absurd rfl (h2 x y rest)

theorem hexPairs_beDigits : ∀ w n,
    hexPairsToBytes (beDigits 16 (2 * w) n) = beDigits 256 w n := by
  intro w
  induction w with
  | zero => intro n; rfl
  | succ w ih =>
    intro n
    have hexp : beDigits 16 (2 * (w + 1)) n
        = beDigits 16 (2 * w) (n / 256) ++ [n / 16 % 16, n % 16] := by
      have h1 : 2 * (w + 1) = 2 * w + 1 + 1 := by ring
      rw [h1]
      simp only [beDigits]
      rw [Nat.div_div_eq_div_mul]
      norm_num
    rw [hexp, hexPairs_append_pair _ _ _ (by simp [beDigits_length])]
    rw [ih (n / 256)]
    have : n / 16 % 16 * 16 + n % 16 = n % 256 := by omega
    rw [this]
    rfl

theorem intPayload_eq (n : Nat) (h : n < 2 ^ 64) : intPayload n = beDigits 256 8 n := by
  have h16 : n < 16 ^ (15 + 1) := by norm_num at h ⊢; omega
  unfold intPayload
  rw [show (16 : Nat) = 15 + 1 from rfl, padZeros_hexDigits 15 n h16,
    show (15 : Nat) + 1 = 2 * 8 from rfl, hexPairs_beDigits]
  exact List.take_of_length_le (by simp [beDigits_length])

theorem hexVal_hexChar (d : Nat) (h : d < 16) : hexVal (hexChar d) = some d := by
  by_cases h10 : d < 10
  · simp only [hexChar, if_pos h10, hexVal]
    rw [if_pos (by omega)]
    simp only [Option.some.injEq]
    omega
  · simp only [hexChar, if_neg h10, hexVal]
    rw [if_neg (by omega), if_pos (by omega)]
    simp only [Option.some.injEq]
    omega

theorem hexDecode_hexEncode (l : List Nat) (h : ∀ b ∈ l, b < 256) :
    hexDecodeChars (hexEncodeBytes l) = l := by
  induction l with
  | nil => rfl
  | cons b l ih =>
    have hb : b < 256 := h b (by simp)
    have h1 : b / 16 < 16 := by omega
    have h2 : b % 16 < 16 := by omega
    simp only [hexEncodeBytes, List.flatMap_cons, List.cons_append, List.nil_append,
      List.singleton_append]
    simp only [hexDecodeChars, hexVal_hexChar _ h1, hexVal_hexChar _ h2]
    have : b / 16 * 16 + b % 16 = b := by omega
    rw [this]
    have ih2 := ih fun x hx => h x (by simp [hx])
    simp only [hexEncodeBytes] at ih2
    rw [ih2]

-- ---------------------------------------------------------------------
-- Decoder lemmas
-- ---------------------------------------------------------------------

theorem scan_clean (b rest : List Nat) (hz : 0 ∉ b) (hr : tagged rest) :
    scanBytesPayload (b ++ 0 :: rest) = some (b, rest) := by
  induction b with
  | nil =>
    cases rest with
    | nil => rfl
    | cons t r' =>
      dsimp [tagged] at hr
      simp only [List.nil_append, scanBytesPayload]
      rw [if_pos hr]
  | cons x b' ih =>
    have hx : x ≠ 0 := fun hh => hz (by simp [hh])
    cases x with
    | zero => exact absurd rfl hx
    | succ x' =>
      have ih2 := ih (fun hh => hz (by simp [hh]))
      simp only [List.cons_append, scanBytesPayload, List.append_eq, ih2, Option.map_some']

theorem split_clean (s rest : List Nat) (hz : 0 ∉ s) :
    splitAtZero (s ++ 0 :: rest) = some (s, rest) := by
  induction s with
  | nil => rfl
  | cons x s' ih =>
    have hx : x ≠ 0 := fun hh => hz (by simp [hh])
    cases x with
    | zero => exact absurd rfl hx
    | succ x' =>
      have ih2 := ih (fun hh => hz (by simp [hh]))
      simp only [List.cons_append, splitAtZero, List.append_eq, ih2, Option.map_some']

theorem keyBytes_nil : keyBytes [] = [] := rfl

theorem keyBytes_cons (p : KeyPart) (k : List KeyPart) :
    keyBytes (p :: k) = encodePart p ++ keyBytes k := by
  simp [keyBytes]

theorem tagged_keyBytes (k : List KeyPart) : tagged (keyBytes k) := by
  cases k with
  | nil => trivial
  | cons p k => rw [keyBytes_cons]; cases p <;> simp [encodePart, tagged]

theorem beDigits_256_8 (n : Nat) : beDigits 256 8 n =
    [n / 256 / 256 / 256 / 256 / 256 / 256 / 256 % 256,
     n / 256 / 256 / 256 / 256 / 256 / 256 % 256,
     n / 256 / 256 / 256 / 256 / 256 % 256,
     n / 256 / 256 / 256 / 256 % 256,
     n / 256 / 256 / 256 % 256,
     n / 256 / 256 % 256,
     n / 256 % 256,
     n % 256] := rfl

theorem decodeKeyBytes_tag1 (rest p r : List Nat)
    (h : scanBytesPayload rest = some (p, r)) :
    decodeKeyBytes (1 :: rest) = (decodeKeyBytes r).map fun ps => .bytes p :: ps := by
  simp only [decodeKeyBytes]
  split
  · next heq => rw [h] at heq; cases heq
  · next pr heq =>
    rw [h] at heq
    cases heq
    rfl

theorem decodeKeyBytes_tag2 (rest p r : List Nat)
    (h : splitAtZero rest = some (p, r)) :
    decodeKeyBytes (2 :: rest) = (decodeKeyBytes r).map fun ps => .str p :: ps := by
  simp only [decodeKeyBytes]
  split
  · next heq => rw [h] at heq; cases heq
  · next pr heq =>
    rw [h] at heq
    cases heq
    rfl

theorem decode_encodePart (p : KeyPart) (hp : goodPart p) (rest : List Nat)
    (hr : tagged rest) :
    decodeKeyBytes (encodePart p ++ rest) = (decodeKeyBytes rest).map fun ps => p :: ps := by
  cases p with
  | bytes b =>
    obtain ⟨hlt, hz⟩ := hp
    have hl : encodePart (.bytes b) ++ rest = 1 :: (b ++ 0 :: rest) := by
      simp [encodePart]
    rw [hl, decodeKeyBytes_tag1 _ b rest (scan_clean b rest hz hr)]
  | str s =>
    obtain ⟨hlt, hz⟩ := hp
    have hl : encodePart (.str s) ++ rest = 2 :: (s ++ 0 :: rest) := by
      simp [encodePart]
    rw [hl, decodeKeyBytes_tag2 _ s rest (split_clean s rest hz)]
  | int n =>
    have hn : n < 2 ^ 64 := hp
    have hl : encodePart (.int n) ++ rest
        = 3 :: (beDigits 256 8 n ++ 0 :: rest) := by
      simp [encodePart, intPayload_eq n hn]
    rw [hl, beDigits_256_8]
    simp only [List.cons_append, List.nil_append, decodeKeyBytes, if_true]
    have hv : ofDigits 256
        [n / 256 / 256 / 256 / 256 / 256 / 256 / 256 % 256,
         n / 256 / 256 / 256 / 256 / 256 / 256 % 256,
         n / 256 / 256 / 256 / 256 / 256 % 256,
         n / 256 / 256 / 256 / 256 % 256,
         n / 256 / 256 / 256 % 256,
         n / 256 / 256 % 256,
         n / 256 % 256,
         n % 256] = n := by
      rw [← beDigits_256_8]
      exact ofDigits_beDigits 256 8 n (by norm_num at hn ⊢; omega)
    rw [hv]
  | num bits =>
    have hn : bits < 2 ^ 64 := hp
    have hl : encodePart (.num bits) ++ rest
        = 4 :: (beDigits 256 8 bits ++ 0 :: rest) := by
      simp [encodePart]
    rw [hl, beDigits_256_8]
    simp only [List.cons_append, List.nil_append, decodeKeyBytes, if_true]
    have hv : ofDigits 256
        [bits / 256 / 256 / 256 / 256 / 256 / 256 / 256 % 256,
         bits / 256 / 256 / 256 / 256 / 256 / 256 % 256,
         bits / 256 / 256 / 256 / 256 / 256 % 256,
         bits / 256 / 256 / 256 / 256 % 256,
         bits / 256 / 256 / 256 % 256,
         bits / 256 / 256 % 256,
         bits / 256 % 256,
         bits % 256] = bits := by
      rw [← beDigits_256_8]
      exact ofDigits_beDigits 256 8 bits (by norm_num at hn ⊢; omega)
    rw [hv]
  | boolean b =>
    cases b <;> simp [encodePart, decodeKeyBytes]

theorem decode_keyBytes (k : List KeyPart) (h : ∀ p ∈ k, goodPart p) :
    decodeKeyBytes (keyBytes k) = some k := by
  induction k with
  | nil => simp [keyBytes, decodeKeyBytes]
  | cons p k ih =>
    rw [keyBytes_cons,
      decode_encodePart p (h p (by simp)) (keyBytes k) (tagged_keyBytes k),
      ih fun q hq => h q (by simp [hq])]
    rfl

theorem encodePart_lt256 (p : KeyPart) (hp : goodPart p) :
    ∀ b ∈ encodePart p, b < 256 := by
  cases p with
  | bytes b =>
    intro x hx
    simp [encodePart] at hx
    rcases hx with rfl | hx | rfl
    · omega
    · exact hp.1 x hx
    · omega
  | str s =>
    intro x hx
    simp [encodePart] at hx
    rcases hx with rfl | hx | rfl
    · omega
    · exact hp.1 x hx
    · omega
  | int n =>
    intro x hx
    rw [encodePart, intPayload_eq n hp] at hx
    simp at hx
    rcases hx with rfl | hx | rfl
    · omega
    · exact beDigits_lt 256 8 n (by omega) x hx
    · omega
  | num bits =>
    intro x hx
    simp [encodePart] at hx
    rcases hx with rfl | hx | rfl
    · omega
    · exact beDigits_lt 256 8 bits (by omega) x hx
    · omega
  | boolean b =>
    intro x hx
    cases b <;> simp [encodePart] at hx <;> omega

theorem keyBytes_lt256 (k : List KeyPart) (h : ∀ p ∈ k, goodPart p) :
    ∀ b ∈ keyBytes k, b < 256 := by
  induction k with
  | nil => simp [keyBytes]
  | cons p k ih =>
    intro b hb
    rw [keyBytes_cons] at hb
    rcases List.mem_append.mp hb with hb | hb
    · exact encodePart_lt256 p (h p (by simp)) b hb
    · exact ih (fun q hq => h q (by simp [hq])) b hb

-- ---------------------------------------------------------------------
-- C1: key codec round-trip
-- ---------------------------------------------------------------------

/-- C1 counterexample. The claim "for every valid key,
`decodeKeyHash (hashKey k) = k`" fails at the valid key
`[Uint8Array [0x00, 0x01]]`: the byte-string terminator scan mistakes its
embedded `0x00` (followed by the tag-like byte `0x01`) for the end of the
part, and decoding returns `[Uint8Array [], Uint8Array []]`. -/
theorem c1_roundtrip_counterexample :
    (hashKey [KeyPart.bytes [0, 1]] KeyOp.read).bind decodeKeyHash
        = some [KeyPart.bytes [], KeyPart.bytes []] ∧
      ¬ (hashKey [KeyPart.bytes [0, 1]] KeyOp.read).bind decodeKeyHash
        = some [KeyPart.bytes [0, 1]] := by
  have h0 : decodeKeyBytes ([] : List Nat) = some [] := by simp [decodeKeyBytes]
  have h1 : decodeKeyBytes [1, 0] = some [KeyPart.bytes []] := by
    rw [show ([1, 0] : List Nat) = 1 :: [0] from rfl,
      decodeKeyBytes_tag1 [0] [] [] rfl, h0]
    rfl
  have h2 : decodeKeyBytes [1, 0, 1, 0] = some [KeyPart.bytes [], KeyPart.bytes []] := by
    rw [show ([1, 0, 1, 0] : List Nat) = 1 :: [0, 1, 0] from rfl,
      decodeKeyBytes_tag1 [0, 1, 0] [] [1, 0] rfl, h1]
    rfl
  have hh : hashKey [KeyPart.bytes [0, 1]] KeyOp.read
      = some [48, 49, 48, 48, 48, 49, 48, 48] := rfl
  have hdec : hexDecodeChars [48, 49, 48, 48, 48, 49, 48, 48] = [1, 0, 1, 0] := rfl
  constructor
  · rw [hh, Option.some_bind, decodeKeyHash, hdec, h2]
  · rw [hh, Option.some_bind, decodeKeyHash, hdec, h2]
    simp

/-- C1 (amended): for every non-empty key whose byte-string and string
parts are `NUL`-free genuine byte sequences and whose integer parts and
double bit patterns fit in 64 bits, whenever encoding succeeds, decoding
the encoded key yields the original key:
`decodeKeyHash (hashKey k) = k`. -/
theorem c1_key_codec_roundtrip (k : List KeyPart) (hne : k ≠ [])
    (hgood : ∀ p ∈ k, goodPart p) (s : List Nat) (hs : hashKey k .read = some s) :
    decodeKeyHash s = some k := by
  unfold hashKey keyToBuffer at hs
  by_cases hlen : (keyBytes k).length > 2048
  · simp [hlen] at hs
  · simp only [hlen, if_neg, ite_false, Option.map_some', Option.some.injEq] at hs
    rw [decodeKeyHash, ← hs, hexDecode_hexEncode _ (keyBytes_lt256 k hgood)]
    exact decode_keyBytes k hgood

/-- C1 witness: the amended round-trip theorem applied at the concrete key
`["a", true, Uint8Array [7]]`. -/
theorem c1_key_codec_roundtrip_witness :
    decodeKeyHash
        [48, 50, 54, 49, 48, 48, 48, 53, 48, 49, 48, 48, 48, 49, 48, 55, 48, 48]
      = some [KeyPart.str [97], KeyPart.boolean true, KeyPart.bytes [7]] :=
  c1_key_codec_roundtrip
    [KeyPart.str [97], KeyPart.boolean true, KeyPart.bytes [7]]
    (by decide) (by decide) _ rfl

-- ---------------------------------------------------------------------
-- C2: order preservation
-- ---------------------------------------------------------------------

theorem then_assoc (a b c : Ordering) : (a.then b).then c = a.then (b.then c) := by
  cases a <;> rfl

theorem then_of_ne_eq {a : Ordering} (h : ¬ a = .eq) (b : Ordering) : a.then b = a := by
  cases a with
  | lt => rfl
  | eq => exact absurd rfl h
  | gt => rfl

theorem then_eq_right (a : Ordering) : a.then .eq = a := by
  cases a <;> rfl

theorem then_eq_left (c : Ordering) : Ordering.eq.then c = c := rfl

theorem cmpN_lt_iff (m n : Nat) : cmpN m n = .lt ↔ m < n := by
  unfold cmpN
  split_ifs with h1 h2 <;> simp_all

theorem cmpN_eq_iff (m n : Nat) : cmpN m n = .eq ↔ m = n := by
  unfold cmpN
  split_ifs with h1 h2 <;> simp_all
  omega

theorem cmpN_self (m : Nat) : cmpN m m = .eq := (cmpN_eq_iff m m).mpr rfl

theorem cmpBytes_cons (a b : Nat) (as bs : List Nat) :
    cmpBytes (a :: as) (b :: bs) = (cmpN a b).then (cmpBytes as bs) := rfl

theorem cmpBytes_zero_cons (x y : List Nat) :
    cmpBytes (0 :: x) (0 :: y) = cmpBytes x y := by
  rw [cmpBytes_cons, cmpN_self, then_eq_left]

theorem cmpBytes_eq_iff : ∀ a b : List Nat, cmpBytes a b = .eq ↔ a = b := by
  intro a
  induction a with
  | nil => intro b; cases b <;> simp [cmpBytes]
  | cons x a ih =>
    intro b
    cases b with
    | nil => simp [cmpBytes]
    | cons y b =>
      simp only [cmpBytes, List.cons.injEq]
      constructor
      · intro h
        have hx : cmpN x y = .eq := by
          by_contra hc
          rw [then_of_ne_eq hc] at h
          exact hc h
        rw [hx] at h
        simp only [Ordering.then] at h
        exact ⟨(cmpN_eq_iff x y).mp hx, (ih b).mp h⟩
      · rintro ⟨rfl, rfl⟩
        rw [cmpN_self, (ih _).mpr rfl]
        rfl

theorem cmpBytes_append_eqlen : ∀ a b x y : List Nat, a.length = b.length →
    cmpBytes (a ++ x) (b ++ y) = (cmpBytes a b).then (cmpBytes x y) := by
  intro a
  induction a with
  | nil =>
    intro b x y h
    have : b = [] := by cases b <;> simp_all
    subst this
    rfl
  | cons c a ih =>
    intro b x y h
    cases b with
    | nil => simp at h
    | cons d b =>
      simp only [List.cons_append, cmpBytes, then_assoc, List.append_eq]
      rw [ih b x y (by simpa using h)]

theorem cmpN_div_mod (B m n : Nat) (hB : 0 < B) :
    cmpN m n = (cmpN (m / B) (n / B)).then (cmpN (m % B) (n % B)) := by
  rcases Nat.lt_trichotomy (m / B) (n / B) with h | h | h
  · have hmn : m < n := by
      by_contra hc
      push_neg at hc
      exact absurd (Nat.div_le_div_right (c := B) hc) (Nat.not_le.mpr h)
    rw [(cmpN_lt_iff _ _).mpr h, (cmpN_lt_iff _ _).mpr hmn]
    rfl
  · have hm := Nat.div_add_mod m B
    have hn := Nat.div_add_mod n B
    rw [h] at hm
    rw [(cmpN_eq_iff (m / B) (n / B)).mpr h]
    generalize hQ : B * (n / B) = Q at hm hn
    generalize hRM : m % B = rm at hm ⊢
    generalize hRN : n % B = rn at hn ⊢
    have heq : cmpN m n = cmpN rm rn := by
      unfold cmpN
      split_ifs <;> first | omega | rfl
    rw [heq]
    rfl
  · have hmn : n < m := by
      by_contra hc
      push_neg at hc
      exact absurd (Nat.div_le_div_right (c := B) hc) (Nat.not_le.mpr h)
    have h1 : cmpN (m / B) (n / B) = .gt := by
      generalize hQM : m / B = qm at h ⊢
      generalize hQN : n / B = qn at h ⊢
      unfold cmpN
      split_ifs <;> first | omega | rfl
    have h2 : cmpN m n = .gt := by
      unfold cmpN
      split_ifs <;> first | omega | rfl
    rw [h1, h2]
    rfl

theorem cmpBytes_beDigits (B : Nat) (hB : 0 < B) :
    ∀ w m n x y, m < B ^ w → n < B ^ w →
      cmpBytes (beDigits B w m ++ x) (beDigits B w n ++ y)
        = (cmpN m n).then (cmpBytes x y) := by
  intro w
  induction w with
  | zero =>
    intro m n x y hm hn
    have hm0 : m = 0 := by simpa using hm
    have hn0 : n = 0 := by simpa using hn
    subst hm0; subst hn0
    simp only [beDigits, List.nil_append, cmpN_self, then_eq_left]
  | succ w ih =>
    intro m n x y hm hn
    have hmd : m / B < B ^ w := by
      rw [Nat.div_lt_iff_lt_mul hB]
      calc m < B ^ (w + 1) := hm
        _ = B ^ w * B := by ring
    have hnd : n / B < B ^ w := by
      rw [Nat.div_lt_iff_lt_mul hB]
      calc n < B ^ (w + 1) := hn
        _ = B ^ w * B := by ring
    simp only [beDigits, List.append_assoc, List.singleton_append]
    rw [ih (m / B) (n / B) _ _ hmd hnd]
    simp only [cmpBytes]
    rw [← then_assoc, ← cmpN_div_mod B m n hB]

theorem cmpBytes_payload_zero : ∀ p1 p2 x y : List Nat, 0 ∉ p1 → 0 ∉ p2 →
    cmpBytes (p1 ++ 0 :: x) (p2 ++ 0 :: y) = (cmpBytes p1 p2).then (cmpBytes x y) := by
  intro p1
  induction p1 with
  | nil =>
    intro p2 x y h1 h2
    cases p2 with
    | nil =>
      simp only [List.nil_append, cmpBytes, cmpN_self, then_eq_left]
    | cons c p2 =>
      have hc : ¬ c = 0 := fun h => h2 (by simp [h])
      simp only [List.nil_append, List.cons_append, cmpBytes]
      have hlt : cmpN 0 c = .lt := (cmpN_lt_iff 0 c).mpr (by omega)
      rw [hlt]
      rfl
  | cons a p1 ih =>
    intro p2 x y h1 h2
    cases p2 with
    | nil =>
      have ha : ¬ a = 0 := fun h => h1 (by simp [h])
      simp only [List.cons_append, List.nil_append, cmpBytes]
      have hgt : cmpN a 0 = .gt := by
        unfold cmpN
        split_ifs <;> first | omega | rfl
      rw [hgt]
      rfl
    | cons c p2 =>
      simp only [List.cons_append, cmpBytes, then_assoc, List.append_eq]
      rw [ih p2 x y (fun h => h1 (by simp [h])) (fun h => h2 (by simp [h]))]

theorem cmp_encodePart (a b : KeyPart) (ha : goodPart a) (hb : goodPart b)
    (x y : List Nat) :
    cmpBytes (encodePart a ++ x) (encodePart b ++ y)
      = (partCmp a b).then (cmpBytes x y) := by
  have h64 : (2 : Nat) ^ 64 = 256 ^ 8 := by norm_num
  -- cross-type pairs and the boolean/boolean pairs reduce definitionally:
  -- the tag (or payload) bytes are literals and both sides collapse to the
  -- same ordering constant
  cases a <;> cases b <;> first | (cases ‹Bool› <;> first | rfl | (cases ‹Bool› <;> rfl)) | rfl | skip
  case bytes.bytes xb yb =>
    have hl1 : encodePart (KeyPart.bytes xb) ++ x = 1 :: (xb ++ 0 :: x) := by
      simp [encodePart]
    have hl2 : encodePart (KeyPart.bytes yb) ++ y = 1 :: (yb ++ 0 :: y) := by
      simp [encodePart]
    rw [hl1, hl2, cmpBytes_cons, cmpN_self, then_eq_left,
      cmpBytes_payload_zero xb yb x y ha.2 hb.2]
    rfl
  case str.str xs ys =>
    have hl1 : encodePart (KeyPart.str xs) ++ x = 2 :: (xs ++ 0 :: x) := by
      simp [encodePart]
    have hl2 : encodePart (KeyPart.str ys) ++ y = 2 :: (ys ++ 0 :: y) := by
      simp [encodePart]
    rw [hl1, hl2, cmpBytes_cons, cmpN_self, then_eq_left,
      cmpBytes_payload_zero xs ys x y ha.2 hb.2]
    rfl
  case int.int m n =>
    have hm : m < 2 ^ 64 := ha
    have hn : n < 2 ^ 64 := hb
    have hl1 : encodePart (KeyPart.int m) ++ x = 3 :: (beDigits 256 8 m ++ 0 :: x) := by
      simp [encodePart, intPayload_eq m hm]
    have hl2 : encodePart (KeyPart.int n) ++ y = 3 :: (beDigits 256 8 n ++ 0 :: y) := by
      simp [encodePart, intPayload_eq n hn]
    rw [hl1, hl2, cmpBytes_cons, cmpN_self, then_eq_left,
      cmpBytes_beDigits 256 (by omega) 8 m n _ _ (h64 ▸ hm) (h64 ▸ hn),
      cmpBytes_zero_cons]
    rfl
  case num.num m n =>
    have hm : m < 2 ^ 64 := ha
    have hn : n < 2 ^ 64 := hb
    have hl1 : encodePart (KeyPart.num m) ++ x = 4 :: (beDigits 256 8 m ++ 0 :: x) := by
      simp [encodePart]
    have hl2 : encodePart (KeyPart.num n) ++ y = 4 :: (beDigits 256 8 n ++ 0 :: y) := by
      simp [encodePart]
    rw [hl1, hl2, cmpBytes_cons, cmpN_self, then_eq_left,
      cmpBytes_beDigits 256 (by omega) 8 m n _ _ (h64 ▸ hm) (h64 ▸ hn),
      cmpBytes_zero_cons]
    rfl

theorem encodePart_ne_nil (p : KeyPart) : ∃ c cs, encodePart p = c :: cs := by
  cases p <;> exact ⟨_, _, rfl⟩

theorem cmpBytes_keyBytes : ∀ k1 k2 : List KeyPart, (∀ p ∈ k1, goodPart p) →
    (∀ p ∈ k2, goodPart p) →
    cmpBytes (keyBytes k1) (keyBytes k2) = keyCmp k1 k2 := by
  intro k1
  induction k1 with
  | nil =>
    intro k2 h1 h2
    cases k2 with
    | nil => rfl
    | cons p k2 =>
      obtain ⟨c, cs, hc⟩ := encodePart_ne_nil p
      rw [keyBytes_nil, keyBytes_cons, hc]
      rfl
  | cons a k1 ih =>
    intro k2 h1 h2
    cases k2 with
    | nil =>
      obtain ⟨c, cs, hc⟩ := encodePart_ne_nil a
      rw [keyBytes_nil, keyBytes_cons, hc]
      rfl
    | cons b k2 =>
      rw [keyBytes_cons, keyBytes_cons,
        cmp_encodePart a b (h1 a (by simp)) (h2 b (by simp)) _ _,
        ih k2 (fun q hq => h1 q (by simp [hq])) (fun q hq => h2 q (by simp [hq]))]
      rfl

/-- C2 counterexample. Order preservation fails at the valid keys
`k1 = ["a", "a"]` and `k2 = ["a\x00"]`: in tuple order `k1 < k2`
(the first part `"a"` is a strict prefix of `"a\x00"`), but the encoding
of `k1` is byte-wise greater, because the terminator `0x00` of `"a"`
collides with the embedded `NUL` of `"a\x00"`. -/
theorem c2_order_counterexample :
    keyCmp [KeyPart.str [97], KeyPart.str [97]] [KeyPart.str [97, 0]] = .lt ∧
      cmpBytes (keyBytes [KeyPart.str [97], KeyPart.str [97]])
        (keyBytes [KeyPart.str [97, 0]]) = .gt := by
  constructor <;> rfl

/-- C2 (amended): for keys whose byte-string and string parts are
`NUL`-free byte sequences and whose integer and double parts fit 64 bits
(doubles ordered by their big-endian bit pattern, the order the encoding
realises), tuple order and byte order of the encodings agree:
`k1 < k2` in tag-typed tuple-lexicographic order iff
`encode(k1) < encode(k2)` byte-lexicographically; moreover parts of
different types order strictly by tag,
bytes < strings < integers < doubles < booleans. -/
theorem c2_order_preservation (k1 k2 : List KeyPart)
    (h1 : ∀ p ∈ k1, goodPart p) (h2 : ∀ p ∈ k2, goodPart p) :
    (keyCmp k1 k2 = .lt ↔ cmpBytes (keyBytes k1) (keyBytes k2) = .lt) ∧
      (∀ a b : KeyPart, goodPart a → goodPart b → tagOf a < tagOf b →
        cmpBytes (encodePart a) (encodePart b) = .lt) := by
  constructor
  · rw [cmpBytes_keyBytes k1 k2 h1 h2]
  · intro a b ha hb hab
    have heq := cmp_encodePart a b ha hb [] []
    simp only [List.append_nil] at heq
    rw [heq]
    have htag : partCmp a b = .lt := by
      cases a <;> cases b <;> simp [tagOf] at hab <;>
        simp [partCmp, cmpN, tagOf] <;> omega
    rw [htag]
    rfl

/-- C2 witness: the amended theorem applied at `k1 = ["a"]`,
`k2 = [2n]` (a string sorts before an integer), together with the
cross-tag conjunct instantiated at `Uint8Array [7]` versus `true`. -/
theorem c2_order_preservation_witness :
    ((keyCmp [KeyPart.str [97]] [KeyPart.int 2] = .lt ↔
        cmpBytes (keyBytes [KeyPart.str [97]]) (keyBytes [KeyPart.int 2]) = .lt) ∧
      (∀ a b : KeyPart, goodPart a → goodPart b → tagOf a < tagOf b →
        cmpBytes (encodePart a) (encodePart b) = .lt)) ∧
      cmpBytes (encodePart (KeyPart.bytes [7])) (encodePart (KeyPart.boolean true)) = .lt := by
  have h := c2_order_preservation [KeyPart.str [97]] [KeyPart.int 2]
    (by decide) (by decide)
  exact ⟨h, h.2 (KeyPart.bytes [7]) (KeyPart.boolean true) (by decide) (by decide)
    (by decide)⟩

-- ---------------------------------------------------------------------
-- C3: versionstamp monotonicity
-- ---------------------------------------------------------------------

theorem vsStep_gt (last now : Nat) : last < vsStep last now := by
  unfold vsStep
  split_ifs with h <;> omega

theorem vsRun_chain (nows : List Nat) : ∀ last,
    List.Chain' (· < ·) (last :: vsRun last nows) := by
  induction nows with
  | nil =>
    intro last
    show List.Chain' (· < ·) [last]
    simp
  | cons now rest ih =>
    intro last
    rw [vsRun]
    exact List.Chain'.cons (vsStep_gt last now) (ih (vsStep last now))

theorem vsRun_bound (M : Nat) : ∀ nows last, (∀ t ∈ nows, t + nows.length < M) →
    last + nows.length < M → ∀ c ∈ vsRun last nows, c < M := by
  intro nows
  induction nows with
  | nil =>
    intro last _ _ c hc
    simp [vsRun] at hc
  | cons now rest ih =>
    intro last hts hlast c hc
    rw [vsRun] at hc
    have hstep : vsStep last now + rest.length < M := by
      have hnow := hts now (by simp)
      unfold vsStep
      simp only [List.length_cons] at hnow hlast
      split_ifs <;> omega
    rcases List.mem_cons.mp hc with rfl | hc
    · omega
    · exact ih (vsStep last now)
        (fun t ht => by
          have := hts t (by simp [ht])
          simp only [List.length_cons] at this
          omega)
        hstep c hc

theorem hexDigits_length_le : ∀ k n, n < 16 ^ k → 1 ≤ k → (hexDigits n).length ≤ k := by
  intro k
  induction k with
  | zero => intro n _ h1; omega
  | succ k ih =>
    intro n hn _
    by_cases h16 : n < 16
    · rw [hexDigits]
      simp [h16]
    · rw [hexDigits]
      simp only [dif_neg h16, List.length_append, List.length_singleton]
      have hdiv : n / 16 < 16 ^ k := by
        rw [Nat.div_lt_iff_lt_mul (by omega)]
        calc n < 16 ^ (k + 1) := hn
          _ = 16 ^ k * 16 := by ring
      have hk : 1 ≤ k := by
        by_contra hk0
        have : k = 0 := by omega
        subst this
        simp at hdiv
        omega
      have := ih (n / 16) hdiv hk
      omega

theorem vsStamp_eq (n : Nat) (h : n < 16 ^ 20) :
    vsStamp n = (beDigits 16 20 n).map hexChar := by
  have hpad := padZeros_hexDigits 19 n h
  unfold vsStamp
  show List.replicate (20 - ((hexDigits n).map hexChar).length) 48
      ++ (hexDigits n).map hexChar = (beDigits 16 20 n).map hexChar
  rw [List.length_map, show (20 : Nat) = 19 + 1 from rfl, ← hpad]
  unfold padZeros
  rw [List.map_append, List.map_replicate]
  rfl

theorem vsStamp_length (n : Nat) (h : n < 16 ^ 20) : (vsStamp n).length = 20 := by
  rw [vsStamp_eq n h]
  simp [beDigits_length]

theorem cmpN_hexChar (a b : Nat) (ha : a < 16) (hb : b < 16) :
    cmpN (hexChar a) (hexChar b) = cmpN a b := by
  unfold cmpN hexChar
  split_ifs <;> first | rfl | omega

theorem cmpBytes_map_hexChar : ∀ l1 l2 : List Nat, (∀ d ∈ l1, d < 16) →
    (∀ d ∈ l2, d < 16) →
    cmpBytes (l1.map hexChar) (l2.map hexChar) = cmpBytes l1 l2 := by
  intro l1
  induction l1 with
  | nil => intro l2 _ _; cases l2 <;> rfl
  | cons a l1 ih =>
    intro l2 h1 h2
    cases l2 with
    | nil => rfl
    | cons b l2 =>
      simp only [List.map_cons, cmpBytes_cons]
      rw [cmpN_hexChar a b (h1 a (by simp)) (h2 b (by simp)),
        ih l2 (fun d hd => h1 d (by simp [hd])) (fun d hd => h2 d (by simp [hd]))]

theorem vsStamp_lt (a b : Nat) (hab : a < b) (hb : b < 16 ^ 20) :
    cmpBytes (vsStamp a) (vsStamp b) = .lt := by
  have ha : a < 16 ^ 20 := by omega
  rw [vsStamp_eq a ha, vsStamp_eq b hb,
    cmpBytes_map_hexChar _ _ (beDigits_lt 16 20 a (by omega)) (beDigits_lt 16 20 b (by omega))]
  have := cmpBytes_beDigits 16 (by omega) 20 a b [] [] ha hb
  simp only [List.append_nil] at this
  rw [this, show cmpBytes [] [] = Ordering.eq from rfl, then_eq_right]
  exact (cmpN_lt_iff a b).mpr hab

theorem chain'_imp_mem {α : Type} {R S : α → α → Prop} :
    ∀ l : List α, (∀ x ∈ l, ∀ y ∈ l, R x y → S x y) → List.Chain' R l →
      List.Chain' S l := by
  intro l
  induction l with
  | nil => intro _ _; simp
  | cons a l ih =>
    intro h hc
    cases l with
    | nil => simp
    | cons b l' =>
      rw [List.chain'_cons] at hc ⊢
      exact ⟨h a (by simp) b (by simp) hc.1,
        ih (fun x hx y hy => h x (by simp [hx]) y (by simp [hy])) hc.2⟩

/-- C3: the versionstamp generator is strictly monotone within a process.
For any sequence of calls, whatever wall-clock microsecond readings the
calls observe — including repeated or decreasing readings — the rendered
20-character lowercase-hex stamps strictly increase lexicographically
(the bound keeps every counter value within 20 hex digits; real clock
readings sit far below it). -/
theorem c3_versionstamp_monotonic (nows : List Nat)
    (hbound : ∀ t ∈ nows, t + nows.length < 16 ^ 20) :
    List.Chain' (fun a b => cmpBytes a b = .lt) ((vsRun 0 nows).map vsStamp) ∧
      ∀ st ∈ (vsRun 0 nows).map vsStamp, st.length = 20 := by
  have hlen : ∀ c ∈ vsRun 0 nows, c < 16 ^ 20 := by
    cases nows with
    | nil => simp [vsRun]
    | cons t rest =>
      have h0 : 0 + (t :: rest).length < 16 ^ 20 := by
        have := hbound t (by simp)
        omega
      exact vsRun_bound (16 ^ 20) (t :: rest) 0 hbound h0
  constructor
  · rw [List.chain'_map]
    have hchain := List.Chain'.tail (vsRun_chain nows 0)
    exact chain'_imp_mem (vsRun 0 nows)
      (fun x _ y hy hxy => vsStamp_lt x y hxy (hlen y hy)) hchain
  · intro st hst
    rw [List.mem_map] at hst
    obtain ⟨c, hc, rfl⟩ := hst
    exact vsStamp_length c (hlen c hc)

/-- C3 witness: three calls observing clock readings `7, 7, 3` (a stalled
and then backward clock) still produce strictly increasing stamps. -/
theorem c3_versionstamp_monotonic_witness :
    List.Chain' (fun a b => cmpBytes a b = .lt) ((vsRun 0 [7, 7, 3]).map vsStamp) ∧
      ∀ st ∈ (vsRun 0 [7, 7, 3]).map vsStamp, st.length = 20 :=
  c3_versionstamp_monotonic [7, 7, 3] (by decide)

-- ---------------------------------------------------------------------
-- Store lemmas
-- ---------------------------------------------------------------------

theorem storeGet_storeSet : ∀ (s : Store) (h : List Nat) (r : Row) (h2 : List Nat),
    storeGet (storeSet s h r) h2 = if h2 = h then some r else storeGet s h2 := by
  intro s
  induction s with
  | nil =>
    intro h r h2
    simp only [storeSet, storeGet]
    by_cases he : h2 = h
    · simp [he]
    · simp [he, Ne.symm he]
  | cons e s ih =>
    intro h r h2
    obtain ⟨k, q⟩ := e
    simp only [storeSet]
    cases hcmp : cmpBytes h k with
    | lt =>
      by_cases he : h2 = h
      · simp [storeGet, he]
      · simp [storeGet, he, Ne.symm he]
    | eq =>
      have hk : h = k := (cmpBytes_eq_iff h k).mp hcmp
      subst hk
      by_cases he : h2 = h
      · simp [storeGet, he]
      · simp [storeGet, he, Ne.symm he]
    | gt =>
      have hk : ¬ h = k := fun hh => by
        rw [(cmpBytes_eq_iff h k).mpr hh] at hcmp
        cases hcmp
      simp only [storeGet, ih h r h2]
      by_cases he : h2 = h
      · subst he
        simp [Ne.symm hk, fun hh : k = h2 => hk hh.symm]
      · by_cases hke : k = h2
        · simp [hke, he]
        · simp [hke, he]

theorem storeGet_storeDelete : ∀ (s : Store) (h h2 : List Nat),
    storeGet (storeDelete s h) h2 = if h2 = h then none else storeGet s h2 := by
  intro s
  induction s with
  | nil =>
    intro h h2
    simp [storeDelete, storeGet]
  | cons e s ih =>
    intro h h2
    obtain ⟨k, q⟩ := e
    simp only [storeDelete]
    by_cases hk : k = h
    · subst hk
      rw [if_pos rfl, ih k h2]
      by_cases he : h2 = k
      · simp [he]
      · simp [storeGet, he, Ne.symm he]
    · rw [if_neg hk]
      simp only [storeGet, ih h h2]
      by_cases hke : k = h2
      · subst hke
        simp [Ne.symm hk, fun hh : k = h => hk hh]
      · by_cases he : h2 = h
        · simp [he, hke, hk]
        · simp [he, hke]

-- ---------------------------------------------------------------------
-- C4: atomic all-or-nothing on check failure
-- ---------------------------------------------------------------------

theorem runChecks_mismatch (s : Store) (now : Nat) : ∀ checks : List Check,
    (∀ c ∈ checks, c.key ≠ [] ∧ (hashKey c.key .read).isSome) →
    (∃ c ∈ checks, ∃ hh, hashKey c.key .read = some hh ∧
      ¬ ((driverGetRow s now hh).map Row.versionstamp = c.versionstamp)) →
    runChecks s now checks = .ok false := by
  intro checks
  induction checks with
  | nil =>
    intro _ hfail
    simp at hfail
  | cons c rest ih =>
    intro hwf hfail
    obtain ⟨hne, hsome⟩ := hwf c (by simp)
    obtain ⟨hh, hhash⟩ := Option.isSome_iff_exists.mp hsome
    have hget : engineGet s now c.key
        = .ok ((driverGetRow s now hh).map fun r => (r.value, r.versionstamp)) := by
      unfold engineGet
      rw [if_neg hne, hhash]
    rw [runChecks, hget]
    show (if ((driverGetRow s now hh).map fun r => (r.value, r.versionstamp)).map Prod.snd
        = c.versionstamp then runChecks s now rest else Except.ok false) = Except.ok false
    have hmap : ((driverGetRow s now hh).map fun r => (r.value, r.versionstamp)).map Prod.snd
        = (driverGetRow s now hh).map Row.versionstamp := by
      rw [Option.map_map]
      rfl
    rw [hmap]
    by_cases hmatch : (driverGetRow s now hh).map Row.versionstamp = c.versionstamp
    · rw [if_pos hmatch]
      apply ih (fun c2 hc2 => hwf c2 (by simp [hc2]))
      rcases hfail with ⟨c2, hc2, hh2, hhash2, hne2⟩
      rcases List.mem_cons.mp hc2 with rfl | hc2
      · rw [hhash] at hhash2
        cases hhash2
        exact absurd hmatch hne2
      · exact ⟨c2, hc2, hh2, hhash2, hne2⟩
    · rw [if_neg hmatch]

/-- C4: all-or-nothing on check failure. If every check names a non-empty,
encodable key and some check's expected versionstamp differs from the
current entry's versionstamp (with `null` matching absent-or-expired
entries), then `commit` returns `ok: false` and the store — in particular
every key named in the batch's mutations — is exactly the pre-commit
store: no mutation is applied. -/
theorem c4_atomic_all_or_nothing (s : Store) (now : Nat) (vs : List Nat)
    (checks : List Check) (muts : List Mutation)
    (hwf : ∀ c ∈ checks, c.key ≠ [] ∧ (hashKey c.key .read).isSome)
    (hfail : ∃ c ∈ checks, ∃ hh, hashKey c.key .read = some hh ∧
      ¬ ((driverGetRow s now hh).map Row.versionstamp = c.versionstamp)) :
    executeAtomic s now vs checks muts = (s, .notOk) := by
  unfold executeAtomic
  rw [runChecks_mismatch s now checks hwf hfail]

/-- C4 witness: a store holding `["a"]` with versionstamp `"00"`, checked
against expected versionstamp `null`, with a pending `set` mutation: the
commit fails and the store is untouched. -/
theorem c4_atomic_all_or_nothing_witness :
    executeAtomic [([48, 50, 54, 49, 48, 48], ⟨Value.plain [1], [48, 48], none⟩)]
        0 [48, 49] [⟨[KeyPart.str [97]], none⟩]
        [Mutation.set [KeyPart.str [97]] (Value.plain [2]) none]
      = ([([48, 50, 54, 49, 48, 48], ⟨Value.plain [1], [48, 48], none⟩)], .notOk) :=
  c4_atomic_all_or_nothing _ _ _ _ _
    (by intro c hc; simp at hc; subst hc; exact ⟨by decide, by decide⟩)
    ⟨⟨[KeyPart.str [97]], none⟩, by simp, [48, 50, 54, 49, 48, 48], rfl, by decide⟩

-- ---------------------------------------------------------------------
-- C5: mutation ordering and uniform stamping
-- ---------------------------------------------------------------------

theorem driverSet_stamp (s : Store) (h : List Nat) (v : Value) (vs : List Nat)
    (e : Option Nat) (s2 : Store) (hs : driverSet s h v vs e = .ok s2) :
    ∀ h2 r, storeGet s2 h2 = some r → storeGet s h2 = some r ∨ r.versionstamp = vs := by
  unfold driverSet at hs
  split at hs
  · cases hs
  · cases hs
    intro h2 r hr
    rw [storeGet_storeSet] at hr
    split at hr
    · cases hr
      right
      rfl
    · exact Or.inl hr

theorem applyMutation_stamp (s : Store) (now : Nat) (vs : List Nat) (m : Mutation)
    (s2 : Store) (hs : applyMutation s now vs m = .ok s2) :
    ∀ h r, storeGet s2 h = some r → storeGet s h = some r ∨ r.versionstamp = vs := by
  cases m with
  | set k v e =>
    simp only [applyMutation] at hs
    split at hs
    · cases hs
    · exact driverSet_stamp _ _ _ _ _ _ hs
  | del k =>
    simp only [applyMutation] at hs
    split at hs
    · cases hs
    · cases hs
      intro h r hr
      rw [storeGet_storeDelete] at hr
      split at hr
      · cases hr
      · exact Or.inl hr
  | sum k v =>
    simp only [applyMutation, counterMutate] at hs
    split at hs
    · cases hs
    · split at hs
      · cases hs
      · exact driverSet_stamp _ _ _ _ _ _ hs
      · split at hs
        · exact driverSet_stamp _ _ _ _ _ _ hs
        · split at hs
          · exact driverSet_stamp _ _ _ _ _ _ hs
          · cases hs
  | max k v =>
    simp only [applyMutation, counterMutate] at hs
    split at hs
    · cases hs
    · split at hs
      · cases hs
      · exact driverSet_stamp _ _ _ _ _ _ hs
      · split at hs
        · exact driverSet_stamp _ _ _ _ _ _ hs
        · split at hs
          · exact driverSet_stamp _ _ _ _ _ _ hs
          · cases hs
  | min k v =>
    simp only [applyMutation, counterMutate] at hs
    split at hs
    · cases hs
    · split at hs
      · cases hs
      · exact driverSet_stamp _ _ _ _ _ _ hs
      · split at hs
        · exact driverSet_stamp _ _ _ _ _ _ hs
        · split at hs
          · exact driverSet_stamp _ _ _ _ _ _ hs
          · cases hs

theorem runMutations_stamp (now : Nat) (vs : List Nat) :
    ∀ (muts : List Mutation) (s s2 : Store),
      runMutations s now vs muts = .ok s2 →
      ∀ h r, storeGet s2 h = some r → storeGet s h = some r ∨ r.versionstamp = vs := by
  intro muts
  induction muts with
  | nil =>
    intro s s2 hs h r hr
    rw [runMutations] at hs
    cases hs
    exact Or.inl hr
  | cons m rest ih =>
    intro s s2 hs h r hr
    rw [runMutations] at hs
    split at hs
    · cases hs
    · next smid hmid =>
      rcases ih smid s2 hs h r hr with hkeep | hst
      · exact applyMutation_stamp s now vs m smid hmid h r hkeep
      · exact Or.inr hst

theorem runMutations_set_del (s : Store) (now : Nat) (vs : List Nat)
    (k : List KeyPart) (v : Value) (h : List Nat) (hh : hashKey k .read = some h)
    (hsz : ¬ (v8SerializeBytes v).length > 65536 + 7) :
    runMutations s now vs [.set k v none, .del k]
      = .ok (storeDelete (storeSet s h ⟨v, vs, none⟩) h) := by
  have h1 : applyMutation s now vs (.set k v none) = .ok (storeSet s h ⟨v, vs, none⟩) := by
    simp only [applyMutation, driverSet]
    rw [hh]
    show (if (v8SerializeBytes v).length > 65536 + 7 then _ else _) = _
    rw [if_neg hsz]
  have h2 : applyMutation (storeSet s h ⟨v, vs, none⟩) now vs (.del k)
      = .ok (storeDelete (storeSet s h ⟨v, vs, none⟩) h) := by
    simp only [applyMutation]
    rw [hh]
  rw [runMutations, h1]
  show runMutations (storeSet s h ⟨v, vs, none⟩) now vs [.del k] = _
  rw [runMutations, h2]
  rfl

theorem runMutations_del_set (s : Store) (now : Nat) (vs : List Nat)
    (k : List KeyPart) (v : Value) (h : List Nat) (hh : hashKey k .read = some h)
    (hsz : ¬ (v8SerializeBytes v).length > 65536 + 7) :
    runMutations s now vs [.del k, .set k v none]
      = .ok (storeSet (storeDelete s h) h ⟨v, vs, none⟩) := by
  have h1 : applyMutation s now vs (.del k) = .ok (storeDelete s h) := by
    simp only [applyMutation]
    rw [hh]
  have h2 : applyMutation (storeDelete s h) now vs (.set k v none)
      = .ok (storeSet (storeDelete s h) h ⟨v, vs, none⟩) := by
    simp only [applyMutation, driverSet]
    rw [hh]
    show (if (v8SerializeBytes v).length > 65536 + 7 then _ else _) = _
    rw [if_neg hsz]
  rw [runMutations, h1]
  show runMutations (storeDelete s h) now vs [.set k v none] = _
  rw [runMutations, h2]
  rfl

/-- C5: mutations of a committed batch apply in insertion order and every
write of the batch carries the one batch versionstamp. In particular, for
any non-empty encodable key: `set` then `delete` leaves the key absent
(and everything else untouched); `delete` then `set` leaves the freshly
stamped set value; and in any committed batch, every row present after the
commit either predates it unchanged or carries the batch versionstamp. -/
theorem c5_mutation_order_and_stamp (s : Store) (now : Nat) (vs : List Nat)
    (k : List KeyPart) (v : Value) (h : List Nat) (hk : k ≠ [])
    (hh : hashKey k .read = some h)
    (hsz : ¬ (v8SerializeBytes v).length > 65536 + 7) :
    ((executeAtomic s now vs [] [.set k v none, .del k]).2 = .committed vs ∧
      ∀ h2, storeGet (executeAtomic s now vs [] [.set k v none, .del k]).1 h2
        = if h2 = h then none else storeGet s h2) ∧
    ((executeAtomic s now vs [] [.del k, .set k v none]).2 = .committed vs ∧
      ∀ h2, storeGet (executeAtomic s now vs [] [.del k, .set k v none]).1 h2
        = if h2 = h then some ⟨v, vs, none⟩ else storeGet s h2) ∧
    (∀ (muts : List Mutation) (s2 : Store), runMutations s now vs muts = .ok s2 →
      ∀ h2 r, storeGet s2 h2 = some r → storeGet s h2 = some r ∨ r.versionstamp = vs) := by
  refine ⟨⟨?_, ?_⟩, ⟨?_, ?_⟩, ?_⟩
  · unfold executeAtomic
    rw [show runChecks s now [] = .ok true from rfl,
      runMutations_set_del s now vs k v h hh hsz]
  · intro h2
    unfold executeAtomic
    rw [show runChecks s now [] = .ok true from rfl,
      runMutations_set_del s now vs k v h hh hsz]
    show storeGet (storeDelete (storeSet s h ⟨v, vs, none⟩) h) h2 = _
    rw [storeGet_storeDelete, storeGet_storeSet]
    by_cases he : h2 = h
    · simp [he]
    · simp [he]
  · unfold executeAtomic
    rw [show runChecks s now [] = .ok true from rfl,
      runMutations_del_set s now vs k v h hh hsz]
  · intro h2
    unfold executeAtomic
    rw [show runChecks s now [] = .ok true from rfl,
      runMutations_del_set s now vs k v h hh hsz]
    show storeGet (storeSet (storeDelete s h) h ⟨v, vs, none⟩) h2 = _
    rw [storeGet_storeSet, storeGet_storeDelete]
    by_cases he : h2 = h
    · simp [he]
    · simp [he]
  · intro muts s2 hs h2 r hr
    exact runMutations_stamp now vs muts s s2 hs h2 r hr

/-- C5 witness: the ordering and stamping theorem applied to a singleton
store, the key `["a"]` and a plain value. -/
theorem c5_mutation_order_and_stamp_witness :
    ((executeAtomic [([48, 48], ⟨Value.plain [9], [48], none⟩)] 0 [48, 49] []
        [.set [KeyPart.str [97]] (Value.plain [2]) none, .del [KeyPart.str [97]]]).2
          = .committed [48, 49] ∧
      ∀ h2, storeGet (executeAtomic [([48, 48], ⟨Value.plain [9], [48], none⟩)] 0
          [48, 49] [] [.set [KeyPart.str [97]] (Value.plain [2]) none,
            .del [KeyPart.str [97]]]).1 h2
        = if h2 = [48, 50, 54, 49, 48, 48] then none
          else storeGet [([48, 48], ⟨Value.plain [9], [48], none⟩)] h2) ∧
    ((executeAtomic [([48, 48], ⟨Value.plain [9], [48], none⟩)] 0 [48, 49] []
        [.del [KeyPart.str [97]], .set [KeyPart.str [97]] (Value.plain [2]) none]).2
          = .committed [48, 49] ∧
      ∀ h2, storeGet (executeAtomic [([48, 48], ⟨Value.plain [9], [48], none⟩)] 0
          [48, 49] [] [.del [KeyPart.str [97]],
            .set [KeyPart.str [97]] (Value.plain [2]) none]).1 h2
        = if h2 = [48, 50, 54, 49, 48, 48] then some ⟨Value.plain [2], [48, 49], none⟩
          else storeGet [([48, 48], ⟨Value.plain [9], [48], none⟩)] h2) ∧
    (∀ (muts : List Mutation) (s2 : Store),
      runMutations [([48, 48], ⟨Value.plain [9], [48], none⟩)] 0 [48, 49] muts = .ok s2 →
      ∀ h2 r, storeGet s2 h2 = some r →
        storeGet [([48, 48], ⟨Value.plain [9], [48], none⟩)] h2 = some r ∨
          r.versionstamp = [48, 49]) :=
  c5_mutation_order_and_stamp [([48, 48], ⟨Value.plain [9], [48], none⟩)] 0 [48, 49]
    [KeyPart.str [97]] (Value.plain [2]) [48, 50, 54, 49, 48, 48]
    (by decide) rfl (by decide)

-- ---------------------------------------------------------------------
-- C6: sum mutation semantics
-- ---------------------------------------------------------------------

/-- C6 counterexample: a present row can store the value `null`
(`set(key, null)` is legal and round-trips). For such a row
`currentValue.value === null` holds in the `sum` branch, so the operand is
written and the batch commits — no `TypeError` is raised, refuting the
claim's "present but not a counter -> TypeError" branch. Here the key
`["k"]` stores `null`; `sum 5` commits the counter `5`. -/
theorem c6_sum_counterexample :
    executeAtomic [([48, 50, 54, 98, 48, 48], ⟨Value.plain nullBlob, [48], none⟩)]
        0 [49] [] [.sum [KeyPart.str [107]] 5]
      = ([([48, 50, 54, 98, 48, 48], ⟨Value.u64 5, [49], none⟩)], .committed [49]) := by
  decide

/-- C6 (amended): semantics of a committed `sum` mutation with U64 operand
`v` (`KvU64` enforces `v < 2^64`; its source file is absent from `src/`,
the range is modelled from the spec). If the key is absent or expired, the
new value is the operand; if the current value is a U64 counter `c`, the
new value is `(c + v) mod 2^64` (wrapping); if a present row stores the
value `null`, the mutation behaves as if the key were absent — the operand
is written and the batch commits (`currentValue.value === null`,
valkeyrie.ts:785); only when a present, non-`null` value is not a counter
does the commit raise a `TypeError` that escapes `commit` — it does not
return `ok: false` — and the store is rolled back unchanged. -/
theorem c6_sum_semantics (s : Store) (now : Nat) (vs : List Nat)
    (k : List KeyPart) (v : Nat) (h : List Nat) (hk : k ≠ [])
    (hh : hashKey k .read = some h) (hv : v < 2 ^ 64) :
    (driverGetRow s now h = none →
      executeAtomic s now vs [] [.sum k v]
        = (storeSet s h ⟨.u64 v, vs, none⟩, .committed vs)) ∧
    (∀ r c, driverGetRow s now h = some r → r.value = .u64 c →
      executeAtomic s now vs [] [.sum k v]
        = (storeSet s h ⟨.u64 ((c + v) % 2 ^ 64), vs, none⟩, .committed vs)) ∧
    (∀ r, driverGetRow s now h = some r → r.value = .plain nullBlob →
      executeAtomic s now vs [] [.sum k v]
        = (storeSet s h ⟨.u64 v, vs, none⟩, .committed vs)) ∧
    (∀ r, driverGetRow s now h = some r → (∀ c, ¬ r.value = .u64 c) →
      ¬ r.value = .plain nullBlob →
      executeAtomic s now vs [] [.sum k v]
        = (s, .raised "Failed to perform sum mutation on a non-U64 value in the database")) := by
  have hget : engineGet s now k
      = .ok ((driverGetRow s now h).map fun r => (r.value, r.versionstamp)) := by
    unfold engineGet
    rw [if_neg hk, hh]
  have hu64sz : ∀ c : Nat, ¬ (v8SerializeBytes (Value.u64 c)).length > 65536 + 7 := by
    intro c
    simp [v8SerializeBytes, beDigits_length]
  refine ⟨?_, ?_, ?_, ?_⟩
  · intro habs
    have hmut : applyMutation s now vs (.sum k v) = .ok (storeSet s h ⟨.u64 v, vs, none⟩) := by
      simp only [applyMutation, counterMutate]
      rw [hh, hget, habs]
      show driverSet s h (.u64 v) vs none = _
      unfold driverSet
      rw [if_neg (hu64sz v)]
    unfold executeAtomic
    rw [show runChecks s now [] = .ok true from rfl, runMutations, hmut]
    rfl
  · intro r c hr hc
    obtain ⟨rv, rvs, re⟩ := r
    simp only at hc
    subst hc
    have hmut : applyMutation s now vs (.sum k v)
        = .ok (storeSet s h ⟨.u64 ((c + v) % 2 ^ 64), vs, none⟩) := by
      simp only [applyMutation, counterMutate]
      rw [hh, hget, hr]
      show driverSet s h (.u64 ((c + v) % 2 ^ 64)) vs none = _
      unfold driverSet
      rw [if_neg (hu64sz _)]
    unfold executeAtomic
    rw [show runChecks s now [] = .ok true from rfl, runMutations, hmut]
    rfl
  · intro r hr hc
    obtain ⟨rv, rvs, re⟩ := r
    simp only at hc
    subst hc
    have hmut : applyMutation s now vs (.sum k v)
        = .ok (storeSet s h ⟨.u64 v, vs, none⟩) := by
      simp only [applyMutation, counterMutate]
      rw [hh, hget, hr]
      show driverSet s h (.u64 v) vs none = _
      unfold driverSet
      rw [if_neg (hu64sz _)]
    unfold executeAtomic
    rw [show runChecks s now [] = .ok true from rfl, runMutations, hmut]
    rfl
  · intro r hr hnc hnn
    obtain ⟨rv, rvs, re⟩ := r
    cases rv with
    | u64 c => exact absurd rfl (hnc c)
    | plain b =>
      simp only at hnn
      have hfalse : isNullValue (Value.plain b) = false := by
        simp only [isNullValue, decide_eq_false_iff_not]
        intro hbe
        exact hnn (by rw [hbe])
      have hmut : applyMutation s now vs (.sum k v)
          = .error (.typeError
            "Failed to perform sum mutation on a non-U64 value in the database") := by
        simp only [applyMutation, counterMutate]
        rw [hh, hget, hr]
        show (if isNullValue (Value.plain b) = true then driverSet s h (.u64 v) vs none
          else Except.error (Err.typeError
            "Failed to perform sum mutation on a non-U64 value in the database")) = _
        rw [hfalse]
        simp
      unfold executeAtomic
      rw [show runChecks s now [] = .ok true from rfl, runMutations, hmut]

/-- C6 witness: the sum semantics applied at a store carrying the counter
`5` under `["a"]`, with operand `3` (committed value `8` with the batch
stamp); at a store where `["a"]` holds the stored value `null` (the
operand `3` is committed); and at a store carrying a plain non-`null`
value, where the `TypeError` escapes. -/
theorem c6_sum_semantics_witness :
    executeAtomic [([48, 50, 54, 49, 48, 48], ⟨Value.u64 5, [48], none⟩)] 0 [48, 49] []
        [.sum [KeyPart.str [97]] 3]
      = (storeSet [([48, 50, 54, 49, 48, 48], ⟨Value.u64 5, [48], none⟩)]
          [48, 50, 54, 49, 48, 48] ⟨.u64 ((5 + 3) % 2 ^ 64), [48, 49], none⟩,
         .committed [48, 49]) ∧
    executeAtomic [([48, 50, 54, 49, 48, 48], ⟨Value.plain nullBlob, [48], none⟩)] 0
        [48, 49] [] [.sum [KeyPart.str [97]] 3]
      = (storeSet [([48, 50, 54, 49, 48, 48], ⟨Value.plain nullBlob, [48], none⟩)]
          [48, 50, 54, 49, 48, 48] ⟨.u64 3, [48, 49], none⟩,
         .committed [48, 49]) ∧
    executeAtomic [([48, 50, 54, 49, 48, 48], ⟨Value.plain [7], [48], none⟩)] 0
        [48, 49] [] [.sum [KeyPart.str [97]] 3]
      = ([([48, 50, 54, 49, 48, 48], ⟨Value.plain [7], [48], none⟩)],
         .raised "Failed to perform sum mutation on a non-U64 value in the database") :=
  ⟨((c6_sum_semantics [([48, 50, 54, 49, 48, 48], ⟨Value.u64 5, [48], none⟩)] 0
      [48, 49] [KeyPart.str [97]] 3 [48, 50, 54, 49, 48, 48]
      (by decide) rfl (by decide)).2.1
    ⟨Value.u64 5, [48], none⟩ 5 rfl rfl),
   ((c6_sum_semantics [([48, 50, 54, 49, 48, 48], ⟨Value.plain nullBlob, [48], none⟩)] 0
      [48, 49] [KeyPart.str [97]] 3 [48, 50, 54, 49, 48, 48]
      (by decide) rfl (by decide)).2.2.1
    ⟨Value.plain nullBlob, [48], none⟩ rfl rfl),
   ((c6_sum_semantics [([48, 50, 54, 49, 48, 48], ⟨Value.plain [7], [48], none⟩)] 0
      [48, 49] [KeyPart.str [97]] 3 [48, 50, 54, 49, 48, 48]
      (by decide) rfl (by decide)).2.2.2
    ⟨Value.plain [7], [48], none⟩ rfl (by intro c; simp) (by simp [nullBlob]))⟩

-- ---------------------------------------------------------------------
-- C7: key size limits
-- ---------------------------------------------------------------------

/-- C7 (code bug): `keyToBuffer` compares the total length against `2048`
in **both** modes — only its error message mentions 2049 for reads — so an
encoded key of exactly 2049 bytes (here: one 2047-byte `Uint8Array` part)
is rejected in read mode as well, although the read-mode error message
itself announces "max 2049 bytes". A 2048-byte encoding is accepted in
both modes. -/
theorem c7_key_size_limit_read_bug :
    (keyBytes [KeyPart.bytes (List.replicate 2047 65)]).length = 2049 ∧
      keyToBuffer [KeyPart.bytes (List.replicate 2047 65)] KeyOp.read = none ∧
      keyToBuffer [KeyPart.bytes (List.replicate 2047 65)] KeyOp.write = none ∧
      (keyBytes [KeyPart.bytes (List.replicate 2046 65)]).length = 2048 ∧
      keyToBuffer [KeyPart.bytes (List.replicate 2046 65)] KeyOp.read
        = some (keyBytes [KeyPart.bytes (List.replicate 2046 65)]) ∧
      keyToBuffer [KeyPart.bytes (List.replicate 2046 65)] KeyOp.write
        = some (keyBytes [KeyPart.bytes (List.replicate 2046 65)]) := by
  have hlen : (keyBytes [KeyPart.bytes (List.replicate 2047 65)]).length = 2049 := by
    simp only [keyBytes, List.map_cons, List.map_nil, List.flatten_cons,
      List.flatten_nil, List.append_nil, encodePart, List.length_cons,
      List.length_append, List.length_replicate, List.length_singleton]
    simp
  have hlen2 : (keyBytes [KeyPart.bytes (List.replicate 2046 65)]).length = 2048 := by
    simp only [keyBytes, List.map_cons, List.map_nil, List.flatten_cons,
      List.flatten_nil, List.append_nil, encodePart, List.length_cons,
      List.length_append, List.length_replicate, List.length_singleton]
    simp
  refine ⟨hlen, ?_, ?_, hlen2, ?_, ?_⟩
  · show (if (keyBytes [KeyPart.bytes (List.replicate 2047 65)]).length > 2048 then none
        else some (keyBytes [KeyPart.bytes (List.replicate 2047 65)]))
      = (none : Option (List Nat))
    rw [hlen]
    norm_num
  · show (if (keyBytes [KeyPart.bytes (List.replicate 2047 65)]).length > 2048 then none
        else some (keyBytes [KeyPart.bytes (List.replicate 2047 65)]))
      = (none : Option (List Nat))
    rw [hlen]
    norm_num
  · show (if (keyBytes [KeyPart.bytes (List.replicate 2046 65)]).length > 2048 then none
        else some (keyBytes [KeyPart.bytes (List.replicate 2046 65)]))
      = some (keyBytes [KeyPart.bytes (List.replicate 2046 65)])
    rw [hlen2]
    norm_num
  · show (if (keyBytes [KeyPart.bytes (List.replicate 2046 65)]).length > 2048 then none
        else some (keyBytes [KeyPart.bytes (List.replicate 2046 65)]))
      = some (keyBytes [KeyPart.bytes (List.replicate 2046 65)])
    rw [hlen2]
    norm_num

-- ---------------------------------------------------------------------
-- C9: the serializer option is ignored
-- ---------------------------------------------------------------------

/-- C9: whatever serializer option is passed to `open`, the sqlite driver
is built the same way — the `sqliteDriver` factory's parameter list has
only `path`, so the serializer argument `open` forwards is dropped — and
the driver serializes and deserializes values with the `node:v8` codec;
in particular stored bytes and read-back values never depend on the
serializer option, and any well-formed value round-trips. -/
theorem c9_serializer_ignored (path : Option String) (s1 s2 : Option SerializerModel) :
    sqliteDriver path s1 = sqliteDriver path s2 ∧
      (sqliteDriver path s1).serializeValue = serializeValueV8 ∧
      (sqliteDriver path s1).deserializeValue = deserializeValueV8 ∧
      ∀ v bytes flag, valueWf v → serializeValueV8 v = .ok (bytes, flag) →
        deserializeValueV8 bytes flag = v := by
  refine ⟨rfl, rfl, rfl, ?_⟩
  intro v bytes flag hwf hser
  cases v with
  | u64 n =>
    simp only [serializeValueV8, v8SerializeBytes] at hser
    rw [if_neg (by simp [beDigits_length])] at hser
    cases hser
    unfold deserializeValueV8
    rw [if_pos (by omega)]
    have : n < 256 ^ 8 := by
      have : (2 : Nat) ^ 64 = 256 ^ 8 := by norm_num
      exact this ▸ hwf
    rw [ofDigits_beDigits 256 8 n this]
  | plain b =>
    simp only [serializeValueV8, v8SerializeBytes] at hser
    split at hser
    · cases hser
    · cases hser
      unfold deserializeValueV8
      rw [if_neg (by omega)]

/-- C9 witness: the theorem applied at an in-memory path, no serializer
versus a custom serializer, and the counter value `5`. -/
theorem c9_serializer_ignored_witness :
    (sqliteDriver none none
        = sqliteDriver none (some ⟨fun _ => [], fun _ => Value.plain []⟩) ∧
      (sqliteDriver none none).serializeValue = serializeValueV8 ∧
      (sqliteDriver none none).deserializeValue = deserializeValueV8 ∧
      ∀ v bytes flag, valueWf v → serializeValueV8 v = .ok (bytes, flag) →
        deserializeValueV8 bytes flag = v) ∧
    deserializeValueV8 (beDigits 256 8 5) 1 = Value.u64 5 := by
  have h := c9_serializer_ignored none none
    (some ⟨fun _ => [], fun _ => Value.plain []⟩)
  exact ⟨h, h.2.2.2 (Value.u64 5) (beDigits 256 8 5) 1 (by decide) rfl⟩

-- ---------------------------------------------------------------------
-- C10: delete accepts the empty key
-- ---------------------------------------------------------------------

/-- C10: `delete` accepts the empty key. Unlike `get` and `set`, which
reject the empty key before any I/O, `delete` performs no emptiness check:
it hashes `[]` to the empty string and issues the store delete for that
row. -/
theorem c10_delete_empty_key (s : Store) (now : Nat) (v : Value) (e : Option Nat)
    (vs : List Nat) :
    engineDelete s [] = .ok (storeDelete s []) ∧
      hashKey [] .read = some [] ∧
      engineGet s now [] = .error (.plain "Key cannot be empty") ∧
      engineSet s now [] v e vs = .error (.plain "Key cannot be empty") :=
  ⟨rfl, rfl, rfl, rfl⟩

-- ---------------------------------------------------------------------
-- C8: comparison and base64 lemmas
-- ---------------------------------------------------------------------

theorem then_lt_iff (o p : Ordering) : o.then p = .lt ↔ o = .lt ∨ (o = .eq ∧ p = .lt) := by
  cases o <;> simp [Ordering.then]

theorem then_gt_iff (o p : Ordering) : o.then p = .gt ↔ o = .gt ∨ (o = .eq ∧ p = .gt) := by
  cases o <;> simp [Ordering.then]

theorem cmpBytes_self (a : List Nat) : cmpBytes a a = .eq := (cmpBytes_eq_iff a a).mpr rfl

theorem cmpBytes_lt_trans : ∀ a b c : List Nat, cmpBytes a b = .lt →
    cmpBytes b c = .lt → cmpBytes a c = .lt := by
  intro a
  induction a with
  | nil =>
    intro b c hab hbc
    cases b with
    | nil => cases hab
    | cons y b =>
      cases c with
      | nil => cases hbc
      | cons z c => rfl
  | cons x a ih =>
    intro b c hab hbc
    cases b with
    | nil => cases hab
    | cons y b =>
      cases c with
      | nil => cases hbc
      | cons z c =>
        rw [cmpBytes_cons] at hab hbc
        rw [cmpBytes_cons, then_lt_iff]
        rcases (then_lt_iff _ _).mp hab with h1 | ⟨h1, h1'⟩ <;>
          rcases (then_lt_iff _ _).mp hbc with h2 | ⟨h2, h2'⟩
        · exact Or.inl ((cmpN_lt_iff _ _).mpr
            (lt_trans ((cmpN_lt_iff _ _).mp h1) ((cmpN_lt_iff _ _).mp h2)))
        · rw [← (cmpN_eq_iff _ _).mp h2] at *
          exact Or.inl h1
        · rw [(cmpN_eq_iff _ _).mp h1] at *
          exact Or.inl h2
        · rw [(cmpN_eq_iff _ _).mp h1] at *
          exact Or.inr ⟨h2, ih b c h1' h2'⟩

theorem cmpN_gt_iff_lt (m n : Nat) : cmpN m n = .gt ↔ cmpN n m = .lt := by
  unfold cmpN
  split_ifs <;> first | decide | omega

theorem cmpBytes_gt_iff_lt : ∀ a b : List Nat, cmpBytes a b = .gt ↔ cmpBytes b a = .lt := by
  intro a
  induction a with
  | nil => intro b; cases b <;> simp [cmpBytes]
  | cons x a ih =>
    intro b
    cases b with
    | nil => simp [cmpBytes]
    | cons y b =>
      rw [cmpBytes_cons, cmpBytes_cons, then_gt_iff, then_lt_iff, cmpN_gt_iff_lt,
        ih b]
      constructor
      · rintro (h | ⟨h, h'⟩)
        · exact Or.inl h
        · exact Or.inr ⟨by rw [(cmpN_eq_iff _ _).mp h, cmpN_self], h'⟩
      · rintro (h | ⟨h, h'⟩)
        · exact Or.inl h
        · exact Or.inr ⟨by rw [(cmpN_eq_iff _ _).mp h, cmpN_self], h'⟩

theorem cmpBytes_prefix_lt (a x : List Nat) (hx : x ≠ []) :
    cmpBytes a (a ++ x) = .lt := by
  have := cmpBytes_append_eqlen a a [] x rfl
  rw [List.append_nil] at this
  rw [this, cmpBytes_self, then_eq_left]
  cases x with
  | nil => exact absurd rfl hx
  | cons c x => rfl

theorem cmpBytes_ext_gt (a t : List Nat) (ht : t ≠ []) :
    cmpBytes (a ++ t) a = .gt :=
  (cmpBytes_gt_iff_lt _ _).mpr (cmpBytes_prefix_lt a t ht)

theorem cmpBytes_gt_zero_ext : ∀ ch e : List Nat, (∀ y ∈ e, 0 < y) →
    cmpBytes e ch = .gt → cmpBytes e (ch ++ [0]) = .gt := by
  intro ch
  induction ch with
  | nil =>
    intro e hpos hgt
    cases e with
    | nil => cases hgt
    | cons y e =>
      rw [List.nil_append, cmpBytes_cons, then_gt_iff]
      exact Or.inl ((cmpN_gt_iff_lt _ _).mpr ((cmpN_lt_iff _ _).mpr (hpos y (by simp))))
  | cons c ch ih =>
    intro e hpos hgt
    cases e with
    | nil => cases hgt
    | cons y e =>
      rw [cmpBytes_cons] at hgt
      rw [List.cons_append, cmpBytes_cons, then_gt_iff]
      rcases (then_gt_iff _ _).mp hgt with h | ⟨h, h'⟩
      · exact Or.inl h
      · exact Or.inr ⟨h, ih e (fun y hy => hpos y (by simp [hy])) h'⟩

theorem cmpBytes_not_lt_zero_ext (ch e : List Nat)
    (h : ¬ cmpBytes e (ch ++ [0]) = .lt) : cmpBytes ch e = .lt := by
  by_contra hc
  cases hcase : cmpBytes ch e with
  | lt => exact hc hcase
  | eq =>
    have : ch = e := (cmpBytes_eq_iff _ _).mp hcase
    subst this
    exact h (cmpBytes_prefix_lt ch [0] (by simp))
  | gt =>
    have h1 : cmpBytes e ch = .lt := (cmpBytes_gt_iff_lt _ _).mp hcase
    exact h (cmpBytes_lt_trans e ch (ch ++ [0]) h1 (cmpBytes_prefix_lt ch [0] (by simp)))

theorem hexEncodeBytes_append (a b : List Nat) :
    hexEncodeBytes (a ++ b) = hexEncodeBytes a ++ hexEncodeBytes b := by
  simp [hexEncodeBytes]

theorem hexEncodeBytes_pos (l : List Nat) (hl : ∀ b ∈ l, b < 256) :
    ∀ c ∈ hexEncodeBytes l, 0 < c ∧ c < 255 := by
  intro c hc
  simp only [hexEncodeBytes, List.mem_flatMap] at hc
  obtain ⟨b, hbmem, hc⟩ := hc
  have hb : b < 256 := hl b hbmem
  simp only [List.mem_cons, List.mem_singleton] at hc
  rcases hc with rfl | rfl | h
  · unfold hexChar; split_ifs <;> omega
  · unfold hexChar
    split_ifs <;> omega
  · cases h

theorem keyBytes_append (k1 k2 : List KeyPart) :
    keyBytes (k1 ++ k2) = keyBytes k1 ++ keyBytes k2 := by
  simp [keyBytes]

theorem b64Char_ne_61 (v : Nat) (h : v < 64) : b64Char v ≠ 61 := by
  unfold b64Char
  split_ifs <;> omega

theorem b64Val_b64Char (v : Nat) (h : v < 64) : b64Val (b64Char v) = v := by
  unfold b64Char b64Val
  split_ifs <;> omega

theorem dropWhile_append_ne_nil {α : Type} (p : α → Bool) :
    ∀ (a b : List α), a.dropWhile p ≠ [] →
      (a ++ b).dropWhile p = a.dropWhile p ++ b := by
  intro a
  induction a with
  | nil => intro b h; exact absurd rfl h
  | cons x a ih =>
    intro b h
    by_cases hp : p x
    · rw [List.dropWhile_cons_of_pos hp] at h
      rw [List.cons_append, List.dropWhile_cons_of_pos hp, ih b h,
        List.dropWhile_cons_of_pos hp]
    · rw [List.cons_append, List.dropWhile_cons_of_neg (by simpa using hp),
        List.dropWhile_cons_of_neg (by simpa using hp)]
      rfl

theorem stripPad_cons_ne61 (x : Nat) (l : List Nat) (hx : x ≠ 61) :
    stripPad (x :: l) = x :: stripPad l := by
  unfold stripPad
  rw [List.reverse_cons, List.dropWhile_append]
  by_cases hnil : (l.reverse.dropWhile fun c => decide (c = 61)).isEmpty
  · rw [if_pos hnil]
    have hdrop : (l.reverse.dropWhile fun c => decide (c = 61)) = [] := by
      simpa [List.isEmpty_iff] using hnil
    rw [List.dropWhile_cons_of_neg (by simpa using hx), hdrop]
    simp
  · rw [if_neg hnil]
    simp [List.reverse_append]

theorem divmod_pack (a b n : Nat) (hb : b < n) (hn : 0 < n) :
    (a * n + b) / n = a ∧ (a * n + b) % n = b := by
  constructor
  · rw [Nat.add_comm, Nat.add_mul_div_right _ _ hn, Nat.div_eq_of_lt hb]
    omega
  · rw [Nat.add_comm, Nat.add_mul_mod_self_right, Nat.mod_eq_of_lt hb]

theorem base64_roundtrip : ∀ b : List Nat, (∀ x ∈ b, x < 256) →
    base64Decode (stripPad (base64Encode b)) = b := by
  intro b
  induction b using base64Encode.induct with
  | case1 =>
    intro _
    rfl
  | case2 b1 =>
    intro hlt
    have hb1 : b1 < 256 := hlt b1 (by simp)
    rw [base64Encode,
      stripPad_cons_ne61 _ _ (b64Char_ne_61 _ (by omega)),
      stripPad_cons_ne61 _ _ (b64Char_ne_61 _ (by omega))]
    have hpad : stripPad [61, 61] = [] := rfl
    rw [hpad]
    show base64Decode [b64Char (b1 / 4), b64Char (b1 % 4 * 16)] = [b1]
    rw [base64Decode, b64Val_b64Char _ (by omega), b64Val_b64Char _ (by omega)]
    have hdm := divmod_pack (b1 % 4) 0 16 (by omega) (by omega)
    have : b1 / 4 * 4 + b1 % 4 * 16 / 16 = b1 := by
      have h1 : b1 % 4 * 16 / 16 = b1 % 4 := by
        have := hdm.1
        omega
      omega
    rw [this]
  | case3 b1 b2 =>
    intro hlt
    have hb1 : b1 < 256 := hlt b1 (by simp)
    have hb2 : b2 < 256 := hlt b2 (by simp)
    rw [base64Encode,
      stripPad_cons_ne61 _ _ (b64Char_ne_61 _ (by omega)),
      stripPad_cons_ne61 _ _ (b64Char_ne_61 _ (by omega)),
      stripPad_cons_ne61 _ _ (b64Char_ne_61 _ (by omega))]
    have hpad : stripPad [61] = [] := rfl
    rw [hpad]
    show base64Decode [b64Char (b1 / 4), b64Char (b1 % 4 * 16 + b2 / 16),
      b64Char (b2 % 16 * 4)] = [b1, b2]
    rw [base64Decode, b64Val_b64Char _ (by omega), b64Val_b64Char _ (by omega),
      b64Val_b64Char _ (by omega)]
    have hdm1 := divmod_pack (b1 % 4) (b2 / 16) 16 (by omega) (by omega)
    have hdm2 := divmod_pack (b2 % 16) 0 4 (by omega) (by omega)
    have e1 : b1 / 4 * 4 + (b1 % 4 * 16 + b2 / 16) / 16 = b1 := by
      have := hdm1.1
      omega
    have e2 : (b1 % 4 * 16 + b2 / 16) % 16 * 16 + b2 % 16 * 4 / 4 = b2 := by
      have h1 := hdm1.2
      have h2 := hdm2.1
      omega
    rw [e1, e2]
  | case4 b1 b2 b3 rest ih =>
    intro hlt
    have hb1 : b1 < 256 := hlt b1 (by simp)
    have hb2 : b2 < 256 := hlt b2 (by simp)
    have hb3 : b3 < 256 := hlt b3 (by simp)
    rw [base64Encode,
      stripPad_cons_ne61 _ _ (b64Char_ne_61 _ (by omega)),
      stripPad_cons_ne61 _ _ (b64Char_ne_61 _ (by omega)),
      stripPad_cons_ne61 _ _ (b64Char_ne_61 _ (by omega)),
      stripPad_cons_ne61 _ _ (b64Char_ne_61 _ (by omega))]
    rw [base64Decode, b64Val_b64Char _ (by omega), b64Val_b64Char _ (by omega),
      b64Val_b64Char _ (by omega), b64Val_b64Char _ (by omega)]
    have hdm1 := divmod_pack (b1 % 4) (b2 / 16) 16 (by omega) (by omega)
    have hdm2 := divmod_pack (b2 % 16) (b3 / 64) 4 (by omega) (by omega)
    have e1 : b1 / 4 * 4 + (b1 % 4 * 16 + b2 / 16) / 16 = b1 := by
      have := hdm1.1
      omega
    have e2 : (b1 % 4 * 16 + b2 / 16) % 16 * 16 + (b2 % 16 * 4 + b3 / 64) / 4 = b2 := by
      have h1 := hdm1.2
      have h2 := hdm2.1
      omega
    have e3 : (b2 % 16 * 4 + b3 / 64) % 4 * 64 + b3 % 64 = b3 := by
      have := hdm2.2
      omega
    rw [e1, e2, e3, ih (fun x hx => hlt x (by simp [hx]))]

instance rowLtIsTrans : IsTrans (List Nat × Row) (fun a b => cmpBytes a.1 b.1 = .lt) :=
  ⟨fun a b c hab hbc => cmpBytes_lt_trans a.1 b.1 c.1 hab hbc⟩

theorem rowLt_asymm {a b : List Nat × Row} (h : cmpBytes a.1 b.1 = .lt) :
    ¬ cmpBytes b.1 a.1 = .lt := by
  intro h2
  have := cmpBytes_lt_trans a.1 b.1 a.1 h h2
  rw [cmpBytes_self] at this
  cases this

theorem filter_pivot_drop : ∀ (l : List (List Nat × Row)) (i : Nat) (x : List Nat × Row),
    List.Pairwise (fun a b => cmpBytes a.1 b.1 = .lt) l →
    1 ≤ i → i ≤ l.length → (l.take i).getLast? = some x →
    l.filter (fun e => decide (cmpBytes x.1 e.1 = .lt)) = l.drop i := by
  intro l
  induction l with
  | nil =>
    intro i x _ h1 h2 _
    simp at h2
    omega
  | cons a l ih =>
    intro i x hpw h1 hlen hx
    rw [List.pairwise_cons] at hpw
    match i, h1 with
    | 1, _ =>
      have hxa : x = a := by
        simp [List.take] at hx
        exact hx.symm
      subst hxa
      rw [List.filter_cons]
      have hself : ¬ cmpBytes x.1 x.1 = .lt := by
        rw [cmpBytes_self]
        simp
      rw [if_neg (by simpa using hself)]
      rw [List.filter_eq_self.mpr fun e he => decide_eq_true_iff.mpr (hpw.1 e he)]
      rfl
    | (j + 2), _ =>
      have hlen' : j + 1 ≤ l.length := by
        simpa using hlen
      have htne : l.take (j + 1) ≠ [] := by
        apply List.ne_nil_of_length_pos
        rw [List.length_take]
        omega
      have htake : ((a :: l).take (j + 2)).getLast? = (l.take (j + 1)).getLast? := by
        rw [List.take_succ_cons]
        obtain ⟨hd, tl, hht⟩ := List.exists_cons_of_ne_nil htne
        rw [hht, List.getLast?_cons_cons]
      rw [htake] at hx
      have hxmem : x ∈ l := List.take_subset _ _ (List.mem_of_mem_getLast? hx)
      have hax : cmpBytes a.1 x.1 = .lt := hpw.1 x hxmem
      rw [List.filter_cons, if_neg (by simpa using rowLt_asymm hax),
        ih (j + 1) x hpw.2 (by omega) hlen' hx]
      rfl

theorem listBatchLoop_single (s : Store) (now : Nat) (ph sh eh : List Nat)
    (fuel : Nat)
    (hcount : (s.filter (rowInRange sh eh ph now)).length < 500) :
    listBatchLoop s now ph 500 false (fuel + 1) sh eh none
      = s.filter (rowInRange sh eh ph now) := by
  have hdl : driverList s sh eh ph now 500 false = s.filter (rowInRange sh eh ph now) := by
    unfold driverList
    simp only [Bool.false_eq_true, if_neg, ite_false]
    exact List.take_of_length_le (by omega)
  rw [listBatchLoop]
  simp only [hdl]
  by_cases h0 : (s.filter (rowInRange sh eh ph now)).length = 0
  · simp [h0, List.length_eq_zero.mp h0]
  · simp [h0, hcount]

theorem hashKey_some_hex (k : List KeyPart) (op : KeyOp) (h : List Nat)
    (hs : hashKey k op = some h) :
    h = hexEncodeBytes (keyBytes k) ∧ (keyBytes k).length ≤ 2048 := by
  unfold hashKey keyToBuffer at hs
  by_cases hl : (keyBytes k).length > 2048
  · simp [hl] at hs
  · simp only [hl, if_neg, ite_false, Option.map_some', Option.some.injEq] at hs
    exact ⟨hs.symm, by omega⟩

theorem hashKey_of_le (k : List KeyPart) (op : KeyOp)
    (hl : (keyBytes k).length ≤ 2048) :
    hashKey k op = some (hexEncodeBytes (keyBytes k)) := by
  unfold hashKey keyToBuffer
  rw [if_neg (by omega)]
  rfl

theorem getBounds_pfx_none (pfx : List KeyPart) (ph : List Nat) (hpfx : pfx ≠ [])
    (hh : hashKey pfx .read = some ph) :
    getBoundsForPfx pfx none false = some (ph, ph ++ [255], ph) := by
  unfold getBoundsForPfx calculatePfxBounds cursorGiven
  rw [if_neg hpfx, hh]
  rfl

theorem getBounds_pfx_cursor (pfx : List KeyPart) (ph c ch : List Nat)
    (hpfx : pfx ≠ []) (hh : hashKey pfx .read = some ph) (hc : c ≠ [])
    (hch : hashKey (pfx ++ [.str (decodeCursorValue c)]) .read = some ch) :
    getBoundsForPfx pfx (some c) false = some (ch ++ [0], ph ++ [255], ph) := by
  unfold getBoundsForPfx calculatePfxBounds cursorGiven
  rw [if_neg hpfx, hh]
  simp [hc, hch]

theorem entry_decode (pfx : List KeyPart) (ph : List Nat) (it : PfxItem)
    (hh : hashKey pfx .read = some ph) (hg : ∀ p ∈ pfx, goodPart p)
    (hit : goodItem it) :
    entryOfRow (rowOfItem ph it) = some (entryOfItem pfx it) := by
  have goodAll : ∀ p ∈ pfx ++ [KeyPart.str it.1], goodPart p := by
    intro p hp
    rcases List.mem_append.mp hp with hp | hp
    · exact hg p hp
    · rw [List.mem_singleton] at hp
      subst hp
      exact ⟨hit.1, hit.2.1⟩
  obtain ⟨hph, _⟩ := hashKey_some_hex pfx .read ph hh
  dsimp only [entryOfRow, rowOfItem, entryOfItem, decodeKeyHash]
  rw [hph, ← hexEncodeBytes_append]
  have hk : keyBytes pfx ++ (2 :: it.1 ++ [0]) = keyBytes (pfx ++ [.str it.1]) := by
    rw [keyBytes_append]
    simp [keyBytes, encodePart]
  rw [hk, hexDecode_hexEncode _ (keyBytes_lt256 _ goodAll), decode_keyBytes _ goodAll]
  rfl

theorem mapM_entry_items (pfx : List KeyPart) (ph : List Nat)
    (hh : hashKey pfx .read = some ph) (hg : ∀ p ∈ pfx, goodPart p) :
    ∀ items : List PfxItem, (∀ it ∈ items, goodItem it) →
      ((items.map (rowOfItem ph)).mapM entryOfRow) = some (items.map (entryOfItem pfx)) := by
  intro items
  induction items with
  | nil => intro _; rfl
  | cons it items ih =>
    intro hgood
    rw [List.map_cons, List.map_cons, List.mapM_cons,
      entry_decode pfx ph it hh hg (hgood it (by simp)),
      ih fun j hj => hgood j (by simp [hj])]
    rfl

theorem item_hexbytes_lt256 (it : PfxItem) (hgood : goodItem it) :
    ∀ x ∈ 2 :: it.1 ++ [0], x < 256 := by
  intro x hx
  simp at hx
  rcases hx with rfl | hx | rfl
  · omega
  · exact hgood.1 x hx
  · omega

theorem item_hexenc_ne_nil (it : PfxItem) :
    hexEncodeBytes (2 :: it.1 ++ [0]) ≠ [] := by
  simp [hexEncodeBytes]

theorem row_in_range_orig (ph : List Nat) (now : Nat) (it : PfxItem)
    (hgood : goodItem it) :
    rowInRange ph (ph ++ [255]) ph now (rowOfItem ph it) = true := by
  have hpos := hexEncodeBytes_pos _ (item_hexbytes_lt256 it hgood)
  have hne := item_hexenc_ne_nil it
  obtain ⟨c0, u', hcu⟩ := List.exists_cons_of_ne_nil hne
  unfold rowInRange rowOfItem rowLive
  simp only [Bool.and_eq_true, decide_eq_true_iff]
  refine ⟨⟨⟨?_, ?_⟩, ?_⟩, trivial⟩
  · rw [cmpBytes_ext_gt ph _ hne]
    simp
  · rw [cmpBytes_append_eqlen ph ph _ [255] rfl, cmpBytes_self, then_eq_left, hcu,
      cmpBytes_cons,
      then_of_ne_eq (by rw [(cmpN_lt_iff c0 255).mpr] <;>
        first
          | simp
          | exact (hpos c0 (by rw [hcu]; simp)).2)]
    exact (cmpN_lt_iff c0 255).mpr (hpos c0 (by rw [hcu]; simp)).2
  · intro heq
    exact hne (List.append_right_eq_self.mp heq)

theorem row_in_range_resumed (ph ch : List Nat) (now : Nat) (it : PfxItem)
    (hgood : goodItem it) (hppos : ∀ y ∈ ph, 0 < y) :
    rowInRange (ch ++ [0]) (ph ++ [255]) ph now (rowOfItem ph it)
      = decide (cmpBytes ch (rowOfItem ph it).1 = .lt) := by
  have hpos := hexEncodeBytes_pos _ (item_hexbytes_lt256 it hgood)
  have hne := item_hexenc_ne_nil it
  obtain ⟨c0, u', hcu⟩ := List.exists_cons_of_ne_nil hne
  have hB : cmpBytes (rowOfItem ph it).1 (ph ++ [255]) = .lt := by
    unfold rowOfItem
    rw [cmpBytes_append_eqlen ph ph _ [255] rfl, cmpBytes_self, then_eq_left, hcu,
      cmpBytes_cons]
    rw [then_of_ne_eq (by rw [(cmpN_lt_iff c0 255).mpr (hpos c0 (by rw [hcu]; simp)).2]; simp)]
    exact (cmpN_lt_iff c0 255).mpr (hpos c0 (by rw [hcu]; simp)).2
  have hC : ¬ (rowOfItem ph it).1 = ph := by
    unfold rowOfItem
    intro heq
    exact hne (List.append_right_eq_self.mp heq)
  have hepos : ∀ y ∈ (rowOfItem ph it).1, 0 < y := by
    unfold rowOfItem
    intro y hy
    rcases List.mem_append.mp hy with hy | hy
    · exact hppos y hy
    · exact (hpos y hy).1
  have hiff : (¬ cmpBytes (rowOfItem ph it).1 (ch ++ [0]) = .lt)
      ↔ cmpBytes ch (rowOfItem ph it).1 = .lt := by
    constructor
    · exact cmpBytes_not_lt_zero_ext ch _
    · intro hlt
      have hgt : cmpBytes (rowOfItem ph it).1 ch = .gt := (cmpBytes_gt_iff_lt _ _).mpr hlt
      rw [cmpBytes_gt_zero_ext ch _ hepos hgt]
      simp
  have h1 : decide (¬ cmpBytes (rowOfItem ph it).1 (ch ++ [0]) = .lt)
      = decide (cmpBytes ch (rowOfItem ph it).1 = .lt) :=
    decide_eq_decide.mpr hiff
  unfold rowInRange
  rw [h1]
  have h2 : decide (cmpBytes (rowOfItem ph it).1 (ph ++ [255]) = .lt) = true := by
    simp [hB]
  have h3 : decide (¬ (rowOfItem ph it).1 = ph) = true := by simp [hC]
  have h4 : rowLive now (rowOfItem ph it).2 = true := rfl
  rw [h2, h3, h4, Bool.and_true, Bool.and_true, Bool.and_true]

theorem keyBytes_single_str (s : List Nat) : keyBytes [.str s] = 2 :: s ++ [0] := by
  simp [keyBytes, encodePart]

theorem cursor_roundtrip (it : PfxItem) (hgood : goodItem it) :
    decodeCursorValue (stripPad (base64Encode (keyBytes [.str it.1]))) = it.1 := by
  rw [keyBytes_single_str]
  unfold decodeCursorValue
  rw [base64_roundtrip _ (item_hexbytes_lt256 it hgood)]
  simp

theorem cursor_ne_nil (it : PfxItem) (hgood : goodItem it) :
    stripPad (base64Encode (keyBytes [.str it.1])) ≠ [] := by
  rw [keyBytes_single_str]
  obtain ⟨y, ys, hys⟩ := List.exists_cons_of_ne_nil hgood.2.2
  obtain ⟨z, zs, hzs⟩ := List.exists_cons_of_ne_nil (List.append_ne_nil_of_right_ne_nil ys (by simp : ([0] : List Nat) ≠ []))
  rw [hys]
  have he : (2 : Nat) :: (y :: ys) ++ [0] = 2 :: y :: z :: zs := by
    rw [List.cons_append, List.cons_append, hzs]
  rw [he]
  have hb : base64Encode (2 :: y :: z :: zs)
      = b64Char (2 / 4) :: b64Char (2 % 4 * 16 + y / 16)
        :: b64Char (y % 16 * 4 + z / 64) :: b64Char (z % 64) :: base64Encode zs := rfl
  rw [hb]
  have h65 : b64Char (2 / 4) = 65 := rfl
  rw [h65, stripPad_cons_ne61 65 _ (by omega)]
  simp

theorem hash_extend (pfx : List KeyPart) (ph : List Nat) (it : PfxItem)
    (hh : hashKey pfx .read = some ph)
    (hsize : (keyBytes (pfx ++ [.str it.1])).length ≤ 2048) :
    hashKey (pfx ++ [.str it.1]) .read = some ((rowOfItem ph it).1) := by
  obtain ⟨hph, _⟩ := hashKey_some_hex pfx .read ph hh
  rw [hashKey_of_le _ _ hsize]
  unfold rowOfItem
  rw [keyBytes_append, hexEncodeBytes_append, hph, keyBytes_single_str]

theorem hash_pos (pfx : List KeyPart) (ph : List Nat) (hg : ∀ p ∈ pfx, goodPart p)
    (hh : hashKey pfx .read = some ph) : ∀ y ∈ ph, 0 < y := by
  obtain ⟨hph, _⟩ := hashKey_some_hex pfx .read ph hh
  subst hph
  intro y hy
  exact ((hexEncodeBytes_pos _ (keyBytes_lt256 pfx hg)) y hy).1

theorem filter_orig (ph : List Nat) (now : Nat)
    (items : List PfxItem) (hgood : ∀ j ∈ items, goodItem j) :
    (items.map (rowOfItem ph)).filter (rowInRange ph (ph ++ [255]) ph now)
      = items.map (rowOfItem ph) := by
  apply List.filter_eq_self.mpr
  intro e he
  obtain ⟨j, hj, rfl⟩ := List.mem_map.mp he
  exact row_in_range_orig ph now j (hgood j hj)

theorem filter_resumed (ph ch : List Nat) (now : Nat)
    (items : List PfxItem) (hgood : ∀ j ∈ items, goodItem j)
    (hppos : ∀ y ∈ ph, 0 < y) :
    (items.map (rowOfItem ph)).filter (rowInRange (ch ++ [0]) (ph ++ [255]) ph now)
      = (items.map (rowOfItem ph)).filter (fun e => decide (cmpBytes ch e.1 = .lt)) := by
  apply List.filter_congr
  intro e he
  obtain ⟨j, hj, rfl⟩ := List.mem_map.mp he
  exact row_in_range_resumed ph ch now j (hgood j hj) hppos

theorem listRun_eval (s : Store) (now : Nat) (pfx : List KeyPart)
    (cursor : Option (List Nat)) (sh eh ph : List Nat)
    (hb : getBoundsForPfx pfx cursor false = some (sh, eh, ph))
    (hcount : (s.filter (rowInRange sh eh ph now)).length < 500) :
    listRun s now pfx cursor none 500 false
      = some (s.filter (rowInRange sh eh ph now)) := by
  unfold listRun
  rw [hb]
  show (if (500 : Nat) > 1000 then none
    else pure (listBatchLoop s now ph 500 false (s.length + 1) sh eh none)) = _
  rw [if_neg (by omega), listBatchLoop_single s now ph sh eh s.length hcount]
  rfl

theorem cursorAfter_eval (entries : List (List KeyPart × Value × List Nat)) (i : Nat)
    (e : List KeyPart × Value × List Nat) (p : KeyPart)
    (h1 : (entries.take i).getLast? = some e)
    (h2 : e.1.getLast? = some p) (h3 : partFalsy p = false) :
    cursorAfter entries i = getCursorFromKey [p] := by
  unfold cursorAfter
  rw [h1]
  show (match e.1.getLast? with
    | none => some []
    | some p => if partFalsy p = true then some [] else getCursorFromKey [p]) = _
  rw [h2]
  show (if partFalsy p = true then some [] else getCursorFromKey [p]) = _
  rw [h3]
  simp

/-- C8 counterexample: with the empty prefix, `list` drained once yields
both stored entries (keys `["a"]`, `["b"]`) and exposes the cursor
`"AmEA"` (`[65,109,69,65]`) after the first; but the run resumed from that
cursor yields `[]` instead of the remaining `["b"]` entry, because the
base64 cursor string is compared directly against the hex `key_hash`
column (every hex hash starts with `'0' = 48 < 65 = 'A'`, so all rows fall
below the resumed lower bound). -/
theorem c8_cursor_counterexample :
    listEntries
        [rowOfItem [] ([97], Value.plain [1], [48]), rowOfItem [] ([98], Value.plain [2], [48])]
        0 [] none none 500 false
      = some [([KeyPart.str [97]], Value.plain [1], [48]),
              ([KeyPart.str [98]], Value.plain [2], [48])]
    ∧ cursorAfter [([KeyPart.str [97]], Value.plain [1], [48]),
              ([KeyPart.str [98]], Value.plain [2], [48])] 1 = some [65, 109, 69, 65]
    ∧ listEntries
        [rowOfItem [] ([97], Value.plain [1], [48]), rowOfItem [] ([98], Value.plain [2], [48])]
        0 [] (some [65, 109, 69, 65]) none 500 false
      = some [] := by
  refine ⟨?_, by decide, by decide⟩
  have hrun : listRun
      [rowOfItem [] ([97], Value.plain [1], [48]), rowOfItem [] ([98], Value.plain [2], [48])]
      0 [] none none 500 false
      = some ([([97], Value.plain [1], [48]), ([98], Value.plain [2], [48])].map (rowOfItem [])) := by
    decide
  unfold listEntries
  rw [hrun]
  show ([([97], Value.plain [1], [48]), ([98], Value.plain [2], [48])].map
    (rowOfItem [])).mapM entryOfRow = _
  rw [mapM_entry_items [] [] rfl (by simp) _ (by decide)]
  rfl

/-- C8 (amended): over a non-empty prefix of valid parts whose stored
items are non-empty NUL-free string parts (so every per-item cursor is a
truthy, decodable string), a full drain yields all items in hash order;
the iterator's cursor after the `i`-th yield is the stripped base64 of the
last part's encoding; `decodeCursorValue` recovers that part; and a fresh
`list` resumed from that cursor yields exactly the items after the first
`i`. The empty-prefix case is excluded: there resumption is broken (see
the counterexample). -/
theorem c8_cursor_resumption (pfx : List KeyPart) (ph : List Nat)
    (items : List PfxItem) (it : PfxItem) (i now : Nat)
    (hpfx : pfx ≠ []) (hg : ∀ p ∈ pfx, goodPart p)
    (hh : hashKey pfx .read = some ph)
    (hgood : ∀ j ∈ items, goodItem j)
    (hsorted : storeSorted (items.map (rowOfItem ph)))
    (hcount : items.length < 500)
    (h1 : 1 ≤ i) (h2 : i ≤ items.length)
    (hlast : (items.take i).getLast? = some it)
    (hsize : (keyBytes (pfx ++ [.str it.1])).length ≤ 2048) :
    listEntries (items.map (rowOfItem ph)) now pfx none none 500 false
        = some (items.map (entryOfItem pfx))
    ∧ cursorAfter (items.map (entryOfItem pfx)) i
        = some (stripPad (base64Encode (keyBytes [.str it.1])))
    ∧ decodeCursorValue (stripPad (base64Encode (keyBytes [.str it.1]))) = it.1
    ∧ listEntries (items.map (rowOfItem ph)) now pfx
          (some (stripPad (base64Encode (keyBytes [.str it.1])))) none 500 false
        = some ((items.map (entryOfItem pfx)).drop i) := by
  have hitmem : it ∈ items :=
    List.take_subset i items (List.mem_of_mem_getLast? (Option.mem_def.mpr hlast))
  have hitg : goodItem it := hgood it hitmem
  have hsize1 : (keyBytes [KeyPart.str it.1]).length ≤ 2048 := by
    rw [keyBytes_append, List.length_append] at hsize
    omega
  have h1e : listEntries (items.map (rowOfItem ph)) now pfx none none 500 false
      = some (items.map (entryOfItem pfx)) := by
    unfold listEntries
    rw [listRun_eval (items.map (rowOfItem ph)) now pfx none ph (ph ++ [255]) ph
        (getBounds_pfx_none pfx ph hpfx hh)
        (by rw [filter_orig ph now items hgood, List.length_map]; omega)]
    rw [filter_orig ph now items hgood]
    show (items.map (rowOfItem ph)).mapM entryOfRow = _
    exact mapM_entry_items pfx ph hh hg items hgood
  have h2e : cursorAfter (items.map (entryOfItem pfx)) i
      = some (stripPad (base64Encode (keyBytes [.str it.1]))) := by
    rw [cursorAfter_eval (items.map (entryOfItem pfx)) i (entryOfItem pfx it) (.str it.1)
        (by rw [← List.map_take, List.getLast?_map, hlast]; rfl)
        (by show (pfx ++ [KeyPart.str it.1]).getLast? = _; rw [List.getLast?_concat])
        (by show decide (it.1 = []) = false; simp [hitg.2.2])]
    unfold getCursorFromKey keyToBuffer
    rw [if_neg (by omega)]
    rfl
  have h3e : decodeCursorValue (stripPad (base64Encode (keyBytes [.str it.1]))) = it.1 :=
    cursor_roundtrip it hitg
  have hch : hashKey (pfx ++
      [.str (decodeCursorValue (stripPad (base64Encode (keyBytes [.str it.1]))))]) .read
      = some ((rowOfItem ph it).1) := by
    rw [h3e]
    exact hash_extend pfx ph it hh hsize
  have hbounds := getBounds_pfx_cursor pfx ph
    (stripPad (base64Encode (keyBytes [.str it.1]))) ((rowOfItem ph it).1)
    hpfx hh (cursor_ne_nil it hitg) hch
  have hpw : List.Pairwise (fun a b => cmpBytes a.1 b.1 = .lt) (items.map (rowOfItem ph)) :=
    List.chain'_iff_pairwise.mp hsorted
  have hfilter : (items.map (rowOfItem ph)).filter
      (rowInRange ((rowOfItem ph it).1 ++ [0]) (ph ++ [255]) ph now)
      = (items.map (rowOfItem ph)).drop i := by
    rw [filter_resumed ph ((rowOfItem ph it).1) now items hgood (hash_pos pfx ph hg hh)]
    exact filter_pivot_drop (items.map (rowOfItem ph)) i (rowOfItem ph it) hpw h1
      (by rw [List.length_map]; exact h2)
      (by rw [← List.map_take, List.getLast?_map, hlast]; rfl)
  have h4e : listEntries (items.map (rowOfItem ph)) now pfx
      (some (stripPad (base64Encode (keyBytes [.str it.1])))) none 500 false
      = some ((items.map (entryOfItem pfx)).drop i) := by
    unfold listEntries
    rw [listRun_eval (items.map (rowOfItem ph)) now pfx
        (some (stripPad (base64Encode (keyBytes [.str it.1]))))
        ((rowOfItem ph it).1 ++ [0]) (ph ++ [255]) ph hbounds
        (by rw [hfilter, List.length_drop, List.length_map]; omega)]
    rw [hfilter, ← List.map_drop]
    show ((items.drop i).map (rowOfItem ph)).mapM entryOfRow = _
    rw [mapM_entry_items pfx ph hh hg (items.drop i)
      (fun j hj => hgood j (List.drop_subset i items hj)), List.map_drop]
  exact ⟨h1e, h2e, h3e, h4e⟩

/-- C8 witness: the resumption theorem applied to the prefix `["p"]`
holding the two items `"a"` and `"b"`, with the cursor taken after the
first yield. -/
theorem c8_cursor_resumption_witness :
    listEntries
        ([([97], Value.plain [], [48]), ([98], Value.plain [], [48])].map
          (rowOfItem [48, 50, 55, 48, 48, 48]))
        0 [KeyPart.str [112]] none none 500 false
      = some ([([97], Value.plain [], [48]), ([98], Value.plain [], [48])].map
          (entryOfItem [KeyPart.str [112]]))
    ∧ cursorAfter
        ([([97], Value.plain [], [48]), ([98], Value.plain [], [48])].map
          (entryOfItem [KeyPart.str [112]])) 1
      = some (stripPad (base64Encode (keyBytes [.str [97]])))
    ∧ decodeCursorValue (stripPad (base64Encode (keyBytes [.str [97]]))) = [97]
    ∧ listEntries
        ([([97], Value.plain [], [48]), ([98], Value.plain [], [48])].map
          (rowOfItem [48, 50, 55, 48, 48, 48]))
        0 [KeyPart.str [112]]
        (some (stripPad (base64Encode (keyBytes [.str [97]])))) none 500 false
      = some (([([97], Value.plain [], [48]), ([98], Value.plain [], [48])].map
          (entryOfItem [KeyPart.str [112]])).drop 1) :=
  c8_cursor_resumption [KeyPart.str [112]] [48, 50, 55, 48, 48, 48]
    [([97], Value.plain [], [48]), ([98], Value.plain [], [48])]
    ([97], Value.plain [], [48]) 1 0
    (by decide) (by decide) (by decide) (by decide)
    (List.chain'_cons.mpr ⟨by decide, List.chain'_singleton _⟩)
    (by decide) (by decide) (by decide) (by decide) (by decide)

end Valkeyrie
